import Mathlib

/-!
Verification of the piper workflow engine (Go) against its specification.

Shallow embedding conventions:
* Go strings are `List Char` (`Str` below); Go `map[string]T` is an
  association list with first-match lookup and overwrite-on-insert, which
  matches Go map semantics up to iteration order (noted where order could
  matter).
* Go's `(value, error)` returns are `Except Str value`; `nil` maps are
  `Option`.
* The `${{ ... }}` regular expression `\$\{\{\s*(.+?)\s*\}\}` is modelled by
  an executable scanner with the same leftmost, shortest-match semantics.
* Wall-clock times, sleep durations and `duration_ms` are not modelled; the
  retry backoff only affects sleeping, never results.
-/

namespace Piper

/-- Go strings, modelled as lists of characters. -/
abbrev Str := List Char

/-- Whitespace class of the regexp `\s` and of Go's `strings.TrimSpace`
(the characters relevant here: space, tab, newline, carriage return,
form feed, vertical tab). -/
def isWs (c : Char) : Bool :=
  c = ' ' || c = '\t' || c = '\n' || c = '\r' || c = '\x0b' || c = '\x0c'

/-- `strings.TrimSpace`: strip leading and trailing whitespace. -/
def trim (s : Str) : Str :=
  ((s.dropWhile isWs).reverse.dropWhile isWs).reverse

/-- Does `s` start with `p` (Go `strings.HasPrefix`)? -/
def startsWith : Str → Str → Bool
  | _, [] => true
  | [], _ :: _ => false
  | c :: s, d :: p => c = d && startsWith s p

/-- Go `strings.Cut` / `strings.SplitN(s, sep, 2)` for a one-character
separator: the part before the first `sep` and, when `sep` occurs, the
part after it. -/
def cutChar : Str → Char → Str × Option Str
  | [], _ => ([], none)
  | c :: s, sep =>
      if c = sep then ([], some s)
      else
        let (pre, post) := cutChar s sep
        (c :: pre, post)

/-- Go `strings.Split(s, ".")`: split at every separator; the empty string
splits to one empty part. -/
def splitAll : Str → Char → List Str
  | [], _ => [[]]
  | c :: s, sep =>
      if c = sep then [] :: splitAll s sep
      else
        match splitAll s sep with
        | [] => [[c]]
        | p :: ps => (c :: p) :: ps

/-- Go `strings.SplitN(s, sep, 2)` for a multi-character separator:
the part before the first occurrence of `sep` and the part after it. -/
def cutSeq : Str → Str → Str × Option Str
  | [], _ => ([], none)
  | c :: s, sep =>
      if startsWith (c :: s) sep then ([], (c :: s).drop sep.length)
      else
        let (pre, post) := cutSeq s sep
        (c :: pre, post)

/-- Lexicographic order on strings by character code (Go's `<` on strings),
used only for `fmt` map-key sorting. -/
def strLe : Str → Str → Bool
  | [], _ => true
  | _ :: _, [] => false
  | c :: s, d :: t =>
      if c.val < d.val then true
      else if d.val < c.val then false
      else strLe s t

/-- Insertion sort by `strLe`, modelling `fmt`'s sorted map printing. -/
def insertSorted (x : Str × Str) : List (Str × Str) → List (Str × Str)
  | [] => [x]
  | y :: ys => if strLe x.1 y.1 then x :: y :: ys else y :: insertSorted x ys

def sortByKey (l : List (Str × Str)) : List (Str × Str) :=
  l.foldr insertSorted []

/-- Go's `any` as it occurs in flow inputs and step outputs: strings,
integers, booleans, nested maps (`map[string]any`) and lists (`[]any`).
Maps are association lists with Go-map lookup/insert semantics. -/
inductive Value where
  | str (s : Str)
  | int (n : Int)
  | bool (b : Bool)
  | list (items : List Value)
  | map (entries : List (Str × Value))

/-- Map read: first (and, with `mapInsert`, only) binding of the key. -/
def mapGet (m : List (Str × Value)) (k : Str) : Option Value :=
  match m.find? (fun e => e.1 = k) with
  | some e => some e.2
  | none => none

/-- Go map assignment `m[k] = v`: overwrite the binding if present,
otherwise add it. -/
def mapInsert (m : List (Str × Value)) (k : Str) (v : Value) :
    List (Str × Value) :=
  match m with
  | [] => [(k, v)]
  | e :: rest => if e.1 = k then (k, v) :: rest else e :: mapInsert rest k v

/-- Go map deletion `delete(m, k)`. -/
def mapErase (m : List (Str × Value)) (k : Str) : List (Str × Value) :=
  m.filter (fun e => ¬ e.1 = k)

/-- Flat string-to-string map read (env, secrets). -/
def smapGet (m : List (Str × Str)) (k : Str) : Option Str :=
  match m.find? (fun e => e.1 = k) with
  | some e => some e.2
  | none => none

/-- Decimal rendering of an integer, as `fmt`'s `%v` prints Go ints. -/
def renderInt (n : Int) : Str := (toString n).toList

mutual
/-- `fmt.Sprintf("%v", v)`: strings verbatim, ints in decimal, booleans as
`true`/`false`, lists as space-separated values in brackets, maps as
`map[k:v ...]` with keys sorted (as `fmt` prints Go maps). -/
def render : Value → Str
  | .str s => s
  | .int n => renderInt n
  | .bool b => if b then "true".toList else "false".toList
  | .list items => '[' :: renderItems items ++ [']']
  | .map entries =>
      "map[".toList ++
        (String.intercalate " "
          ((sortByKey (renderEntries entries)).map
            (fun e => String.mk e.1 ++ ":" ++ String.mk e.2))).toList ++ [']']

def renderItems : List Value → Str
  | [] => []
  | [v] => render v
  | v :: rest => render v ++ ' ' :: renderItems rest

def renderEntries : List (Str × Value) → List (Str × Str)
  | [] => []
  | (k, v) :: rest => (k, render v) :: renderEntries rest
end

/-! ### The expression pattern

`context.go` declares

  `var exprRegex = regexp.MustCompile(` the pattern dollar-brace-brace
  `\s* (.+?) \s*` brace-brace `)`

The scanner below reproduces its leftmost, shortest-match semantics on
`List Char`: a match starts at the leftmost occurrence of the three-character
opener; the body group is lazy, so the match ends at the earliest closer
for which the enclosed text decomposes as `\s* (.+?) \s*` (the body is
non-empty and newline-free, since `.` does not match a newline). -/

def obrace : Char := '{'

def cbrace : Char := '}'

/-- The opener `$` `{` `{` of an expression. -/
def exprOpen : Str := ['$', obrace, obrace]

/-- The closer `}` `}` of an expression. -/
def exprClose : Str := [cbrace, cbrace]

/-- Build the literal expression text: opener, body, closer (with the single
spaces the flows in this repository use). -/
def mkExpr (body : Str) : Str := exprOpen ++ ' ' :: body ++ ' ' :: exprClose

/-- Given the text strictly between opener and closer, the captured group of
`\s*(.+?)\s*`, or `none` when the regexp cannot match at this closer.
With a non-whitespace character present the capture is the span from the
first to the last non-whitespace character (valid only if newline-free,
because `.` does not match newline); for all-whitespace text the lazy group
captures a single whitespace character (the last one no later than any
newline), matching the backtracking order of the regexp. -/
def validBody (mid : Str) : Option Str :=
  let p := mid.dropWhile isWs
  if p.isEmpty then
    match mid.reverse.find? (fun c => ¬ c = '\n') with
    | some c => some [c]
    | none => none
  else
    let body := (p.reverse.dropWhile isWs).reverse
    if body.contains '\n' then none else some body

/-- Scan (with fuel, always called with fuel ≥ length) for the earliest
closer whose accumulated middle text is a valid body.  Returns
`(middle, captured body, rest after the closer)`. -/
def scanClose : Nat → Str → Str → Option (Str × Str × Str)
  | 0, _, _ => none
  | _ + 1, [], _ => none
  | fuel + 1, c :: s, acc =>
      if c = cbrace ∧ s.head? = some cbrace then
        match validBody acc.reverse with
        | some b => some (acc.reverse, b, s.tail)
        | none => scanClose fuel s (c :: acc)
      else scanClose fuel s (c :: acc)

/-- Try to match the expression pattern at the start of `s`:
`(middle, body, rest)` with `s = exprOpen ++ middle ++ exprClose ++ rest`. -/
def matchAt (s : Str) : Option (Str × Str × Str) :=
  match s with
  | '$' :: c1 :: c2 :: t =>
      if c1 = obrace ∧ c2 = obrace then scanClose (t.length + 1) t []
      else none
  | _ => none

/-- `exprRegex.FindStringSubmatch`: the leftmost match, as
`(pre, middle, body, rest)` with
`s = pre ++ exprOpen ++ middle ++ exprClose ++ rest`. -/
def findExpr : Str → Option (Str × Str × Str × Str)
  | [] => none
  | c :: t =>
      match matchAt (c :: t) with
      | some (mid, b, rest) => some ([], mid, b, rest)
      | none =>
          match findExpr t with
          | some (pre, mid, b, rest) => some (c :: pre, mid, b, rest)
          | none => none

/-- All (non-overlapping, leftmost) match bodies, as
`exprRegex.FindAllStringSubmatch(s, -1)` yields them.  Fueled; callers pass
`s.length + 1`, enough since each match consumes at least one character. -/
def findAllBodies : Nat → Str → List Str
  | 0, _ => []
  | fuel + 1, s =>
      match findExpr s with
      | none => []
      | some (_, _, b, rest) => b :: findAllBodies fuel rest

/-! ### Data model

`internal/types/types.go`.  The version of `types.go` present in the source
snapshot predates the retry / parallel / conditional / composition features
that `engine.go` uses, so the step fields below follow the current
`engine.go` together with spec §3 (`retry`, `when`, `parallel`, `flow`,
`retries`); the remaining fields match the `types.go` in the snapshot.
Timestamps and `duration_ms` are not modelled. -/

/-- `retry:` configuration: `max_retries`, `backoff_seconds`.
`backoff_seconds` is a rational here; it only ever feeds the sleep. -/
structure RetryConfig where
  maxRetries : Int
  backoffSeconds : ℚ

/-- A step of a flow.  `parallel` makes the step a group marker. -/
inductive StepDef where
  | mk (name connector action : Str) (input : List (Str × Value))
       (onError : Str) (retry : Option RetryConfig) (whenCond : Str)
       (parallel : List StepDef) (flow : Str)

def StepDef.name : StepDef → Str | .mk n _ _ _ _ _ _ _ _ => n

def StepDef.connector : StepDef → Str | .mk _ c _ _ _ _ _ _ _ => c

def StepDef.action : StepDef → Str | .mk _ _ a _ _ _ _ _ _ => a

def StepDef.input : StepDef → List (Str × Value) | .mk _ _ _ i _ _ _ _ _ => i

def StepDef.onError : StepDef → Str | .mk _ _ _ _ o _ _ _ _ => o

def StepDef.retry : StepDef → Option RetryConfig | .mk _ _ _ _ _ r _ _ _ => r

def StepDef.whenCond : StepDef → Str | .mk _ _ _ _ _ _ w _ _ => w

def StepDef.parallel : StepDef → List StepDef | .mk _ _ _ _ _ _ _ p _ => p

def StepDef.flow : StepDef → Str | .mk _ _ _ _ _ _ _ _ f => f

/-- Per-step execution record (`StepResult`).  `output = none` models a nil
Go map. -/
structure StepResult where
  name : Str := []
  connector : Str := []
  action : Str := []
  status : Str := []
  output : Option (List (Str × Value)) := none
  error : Str := []
  retries : Int := 0

/-- Aggregate execution record (`FlowResult`), without the timestamps. -/
structure FlowResult where
  flow : Str
  status : Str
  input : List (Str × Value)
  steps : List StepResult := []
  error : Str := []

/-- Field of an input schema (`FieldDef`). -/
structure FieldDef where
  type : Str := []
  required : Bool := false

/-- A flow definition (`FlowDef`); `input` is the optional input schema
(property name to field). -/
structure FlowDef where
  name : Str
  input : Option (List (Str × FieldDef)) := none
  steps : List StepDef

/-- One advertised connector action (`plugin.ActionDef`); only the name
matters to the validator. -/
structure ActionDef where
  name : Str

/-- `StepResult`-fragment a connector returns from `Execute`
(status / output / error). -/
structure ExecFragment where
  status : Str
  output : Option (List (Str × Value)) := none
  error : Str := []

/-- The connector capability: name, advertised actions, and `Execute`.
`execute action input` models `Execute(ctx, action, input)`; the `Except`
error is Go's non-nil returned error.  Connector invocation is modelled as
deterministic in its arguments. -/
structure Connector where
  name : Str
  actions : List ActionDef
  execute : Str → List (Str × Value) → Except Str ExecFragment

/-- The connector registry: name-keyed collection
(`internal/plugin/registry.go`).  The lock is irrelevant to a
deterministic model. -/
def Registry := List Connector

/-- `Registry.Get`. -/
def regGet (reg : Registry) (name : Str) : Option Connector :=
  List.find? (fun c => c.name = name) reg

/-- `Registry.Has`. -/
def regHas (reg : Registry) (name : Str) : Bool :=
  (regGet reg name).isSome

/-! ### The expression resolver (`internal/engine/context.go`)

The snapshot's `context.go` predates secret management: `engine.go`'s
`RunWithSecrets` sets a `Secrets` field and `context_test.go` tests a
`secret` root, both absent from it.  The `Secrets` field and the `secret`
case of `resolvePath` are therefore modelled from the spec (§4.3); every
other case below is translated from the snapshot's `context.go`. -/

/-- The per-run resolution environment.  `secrets` is modelled from the
spec (see above); the env snapshot is a parameter instead of a process
environment read. -/
structure StepContext where
  input : List (Str × Value)
  steps : List (Str × StepResult) := []
  env : List (Str × Str) := []
  secrets : List (Str × Str) := []

/-- `AddStepResult`: record a step's result for later reference. -/
def addStepResult (sc : StepContext) (name : Str) (r : StepResult) :
    StepContext :=
  { sc with steps := (name, r) :: sc.steps.filter (fun e => ¬ e.1 = name) }

/-- `lookupNested`: walk a dotted path through nested maps. -/
def lookupNested (m : List (Str × Value)) (path : Str) : Except Str Value :=
  go (Value.map m) (splitAll path '.')
where
  go : Value → List Str → Except Str Value
  | current, [] => .ok current
  | current, part :: rest =>
      match current with
      | .map mp =>
          match mapGet mp part with
          | some nxt => go nxt rest
          | none => .error ("key \"".toList ++ part ++ "\" not found".toList)
      | _ => .error ("cannot index into non-object at \"".toList ++ part ++ "\"".toList)

/-- `resolvePath`: resolve a dotted path such as `input.name` or
`steps.create-repo.output.repo_url` against the context. -/
def resolvePath (sc : StepContext) (path : Str) : Except Str Value :=
  let (root, restOpt) := cutChar path '.'
  if root = "input".toList then
    match restOpt with
    | none => .ok (.map sc.input)
    | some rest =>
        match lookupNested sc.input rest with
        | .ok v => .ok v
        | .error _ =>
            -- Missing input fields resolve to empty string.
            .ok (.str [])
  else if root = "steps".toList then
    match restOpt with
    | none => .error ("incomplete step reference: \"".toList ++ path ++ "\"".toList)
    | some rest =>
        match cutSeq rest ".output.".toList with
        | (stepName, some outputField) =>
            match List.find? (fun e => e.1 = stepName) sc.steps with
            | none => .error ("step \"".toList ++ stepName ++ "\" not found".toList)
            | some (_, sr) =>
                match sr.output with
                | none => .error ("step \"".toList ++ stepName ++ "\" has no output".toList)
                | some out => lookupNested out outputField
        | (_, none) =>
            -- Could be `name.status`.
            let (stepName, restOpt2) := cutChar rest '.'
            match List.find? (fun e => e.1 = stepName) sc.steps with
            | none => .error ("step \"".toList ++ stepName ++ "\" not found".toList)
            | some (_, sr) =>
                if restOpt2 = some "status".toList then .ok (.str sr.status)
                else .error ("invalid step reference: \"".toList ++ path ++ "\"".toList)
  else if root = "env".toList then
    match restOpt with
    | none => .error ("incomplete env reference: \"".toList ++ path ++ "\"".toList)
    | some rest =>
        match smapGet sc.env rest with
        | some v => .ok (.str v)
        | none => .ok (.str [])
  else if root = "secret".toList then
    -- Modelled from the spec: `secret.<KEY>` reads the secrets map and a
    -- missing secret resolves to the empty string (§4.3); the snapshot's
    -- `context.go` predates this root and only its test is present.
    match restOpt with
    | none => .error ("incomplete secret reference: \"".toList ++ path ++ "\"".toList)
    | some rest =>
        match smapGet sc.secrets rest with
        | some v => .ok (.str v)
        | none => .ok (.str [])
  else
    .error ("unknown variable root \"".toList ++ root ++ "\" in \"".toList ++ path ++ "\"".toList)

/-- `slugify` pipe: lowercase; keep letters and digits; map space, dash and
underscore to dash; drop the rest; collapse double dashes; trim dashes. -/
def slugify (s : Str) : Str :=
  let kept := (s.map Char.toLower).foldr
    (fun c acc =>
      if c.isAlpha ∨ c.isDigit then c :: acc
      else if c = ' ' ∨ c = '-' ∨ c = '_' then '-' :: acc
      else acc) []
  let collapsed := collapse kept
  (((collapsed.dropWhile (· = '-')).reverse.dropWhile (· = '-')).reverse)
where
  collapse : Str → Str
  | [] => []
  | c :: rest =>
      match collapse rest with
      | [] => [c]
      | d :: tail =>
          if c = '-' ∧ d = '-' then d :: tail else c :: d :: tail

/-- `applyPipe`: the closed set of pipe functions, applied to the `%v`
rendering of the value. -/
def applyPipe (val : Value) (fn : Str) : Except Str Value :=
  let s := render val
  if fn = "slugify".toList then .ok (.str (slugify s))
  else if fn = "upper".toList then .ok (.str (s.map Char.toUpper))
  else if fn = "lower".toList then .ok (.str (s.map Char.toLower))
  else if fn = "trim".toList then .ok (.str (trim s))
  else .error ("unknown pipe function \"".toList ++ fn ++ "\"".toList)

/-- `evaluateExpr`: split a body such as `input.name | slugify` at the first
pipe, resolve the path, then apply the pipe if present. -/
def evaluateExpr (sc : StepContext) (expr : Str) : Except Str Value := do
  let (rawPath, pipeOpt) := cutChar expr '|'
  let val ← resolvePath sc (trim rawPath)
  match pipeOpt with
  | some pipeRaw => applyPipe val (trim pipeRaw)
  | none => .ok val

/-- The interpolation pass of `resolveString`
(`exprRegex.ReplaceAllStringFunc`): replace every match by the `%v`
rendering of its value; a match whose evaluation fails stays in place and
the last evaluation error is reported.  Fueled; callers pass
`s.length + 1`. -/
def replaceAll (sc : StepContext) : Nat → Str → Str × Option Str
  | 0, s => (s, none)
  | fuel + 1, s =>
      match findExpr s with
      | none => (s, none)
      | some (pre, mid, body, rest) =>
          let (tail, tailErr) := replaceAll sc fuel rest
          match evaluateExpr sc body with
          | .ok v => (pre ++ render v ++ tail, tailErr)
          | .error e =>
              (pre ++ exprOpen ++ mid ++ exprClose ++ tail,
               match tailErr with
               | some e2 => some e2
               | none => some e)

/-- `resolveString`: a string that is exactly one expression yields the raw
typed value; otherwise every expression occurrence is interpolated and a
string comes back. -/
def resolveString (sc : StepContext) (s : Str) : Except Str Value :=
  match findExpr s with
  | some (pre, _, body, rest) =>
      if pre = [] ∧ rest = [] then evaluateExpr sc body
      else
        match replaceAll sc (s.length + 1) s with
        | (_, some e) => .error e
        | (result, none) => .ok (.str result)
  | none =>
      match replaceAll sc (s.length + 1) s with
      | (_, some e) => .error e
      | (result, none) => .ok (.str result)

mutual
/-- `resolveValue`: strings are substituted, maps and lists are rebuilt
with resolved members, other scalars pass through. -/
def resolveValue (sc : StepContext) : Value → Except Str Value
  | .str s => resolveString sc s
  | .map m =>
      match resolveEntries sc m with
      | .ok m2 => .ok (.map m2)
      | .error e => .error e
  | .list items =>
      match resolveItems sc items with
      | .ok l2 => .ok (.list l2)
      | .error e => .error e
  | v => .ok v

/-- `ResolveMap` over the entries of a map.  Go iterates the map in
unspecified order; entry order here is list order, which only shows in
which key's error wins when several fail. -/
def resolveEntries (sc : StepContext) :
    List (Str × Value) → Except Str (List (Str × Value))
  | [] => .ok []
  | (k, v) :: rest =>
      match resolveValue sc v with
      | .error e => .error ("resolving \"".toList ++ k ++ "\": ".toList ++ e)
      | .ok v2 =>
          match resolveEntries sc rest with
          | .ok r2 => .ok ((k, v2) :: r2)
          | .error e => .error e

def resolveItems (sc : StepContext) :
    List Value → Except Str (List Value)
  | [] => .ok []
  | v :: rest =>
      match resolveValue sc v with
      | .error e => .error e
      | .ok v2 =>
          match resolveItems sc rest with
          | .ok r2 => .ok (v2 :: r2)
          | .error e => .error e
end

/-- `ResolveMap`: resolve every value of a step input map. -/
def resolveMap (sc : StepContext) (m : List (Str × Value)) :
    Except Str (List (Str × Value)) :=
  resolveEntries sc m

/-! ### Condition evaluation

Modelled from the spec: `EvaluateCondition` lives in the current
`context.go`, which is missing from the snapshot (the `context.go` present
predates conditionals).  Spec §4.3: empty string means run; otherwise the
string must be a single expression spanning it; the body is either a bare
path (truthiness test) or `lhs OP rhs` with `OP` one of `==`, `!=`, `>=`,
`<=`, `>`, `<`; operands are paths or double-quoted literals; comparisons
are numeric when both sides parse as numbers, else lexicographic; equality
compares the `%v` renderings.  (Numbers are modelled as integers.)
No claim in this development depends on the comparison details. -/

/-- Is every character a digit (with an optional leading minus)? -/
def looksNumeric (s : Str) : Bool :=
  match s with
  | '-' :: rest => ¬ rest.isEmpty && rest.all Char.isDigit
  | _ => ¬ s.isEmpty && s.all Char.isDigit

/-- Parse a decimal integer (assuming `looksNumeric`). -/
def parseInt (s : Str) : Int :=
  match s with
  | '-' :: rest => - (Int.ofNat (rest.foldl (fun n c => n * 10 + c.toNat - '0'.toNat) 0))
  | _ => Int.ofNat (s.foldl (fun n c => n * 10 + c.toNat - '0'.toNat) 0)

/-- Find the first comparison operator occurrence: `(lhs, op, rhs)`. -/
def splitCompare : Str → Option (Str × Str × Str)
  | [] => none
  | c :: s =>
      let two := [c] ++ s.take 1
      if two = "==".toList ∨ two = "!=".toList ∨ two = ">=".toList ∨
          two = "<=".toList then
        some ([], two, s.drop 1)
      else if c = '>' ∨ c = '<' then some ([], [c], s)
      else
        match splitCompare s with
        | some (lhs, op, rhs) => some (c :: lhs, op, rhs)
        | none => none

/-- Spec §4.3 truthiness: `true`, non-empty string, non-zero number. -/
def truthy : Value → Bool
  | .bool b => b
  | .str s => ¬ s.isEmpty
  | .int n => ¬ n = 0
  | _ => true

/-- A comparison operand: a double-quoted literal or a path. -/
def evalOperand (sc : StepContext) (raw : Str) : Except Str Value :=
  let t := trim raw
  match t with
  | '"' :: rest =>
      if rest.getLast? = some '"' then .ok (.str (rest.dropLast))
      else evaluateExpr sc t
  | _ => evaluateExpr sc t

/-- Modelled from the spec: `EvaluateCondition` (see the section comment). -/
def evaluateCondition (sc : StepContext) (whenExpr : Str) :
    Except Str Bool :=
  if whenExpr.isEmpty then .ok true
  else
    match findExpr whenExpr with
    | some ([], _, body, []) =>
        (match splitCompare body with
         | some (lhs, op, rhs) => do
             let lv ← evalOperand sc lhs
             let rv ← evalOperand sc rhs
             let ls := render lv
             let rs := render rv
             if op = "==".toList then .ok (ls = rs)
             else if op = "!=".toList then .ok (¬ ls = rs)
             else
               let cmpLt : Bool × Bool :=
                 if looksNumeric ls ∧ looksNumeric rs then
                   (decide (parseInt ls < parseInt rs),
                    decide (parseInt rs < parseInt ls))
                 else
                   (strLe ls rs && ¬ decide (ls = rs),
                    strLe rs ls && ¬ decide (ls = rs))
               if op = ">".toList then .ok cmpLt.2
               else if op = "<".toList then .ok cmpLt.1
               else if op = ">=".toList then .ok (¬ cmpLt.1)
               else if op = "<=".toList then .ok (¬ cmpLt.2)
               else .error ("unsupported operator \"".toList ++ op ++ "\"".toList)
         | none => do
             let v ← evaluateExpr sc body
             .ok (truthy v))
    | _ => .error ("condition must be a single expression: \"".toList ++
        whenExpr ++ "\"".toList)

/-! ### The validator (`internal/engine/validate.go`, snapshot version)

Translated from the snapshot's validator.  Note this version accepts
exactly the `on_error` values empty / `abort` / `continue` / `skip` and
looks every non-empty connector up in the registry, with no special case
for `flow`. -/

/-- 1-based decimal rendering of a step index, for messages. -/
def stepNum (i : Nat) : Str := (toString (i + 1)).toList

/-- The step name a match body references, when its (pipe-stripped,
trimmed) path begins with `steps.`: the segment up to the next dot. -/
def refOfBody (body : Str) : Option Str :=
  let expr := trim body
  let (path0, _) := cutChar expr '|'
  let path := trim path0
  if startsWith path "steps.".toList then
    let rest := path.drop "steps.".toList.length
    let (refName, _) := cutChar rest '.'
    some refName
  else none

/-- The issues one match body contributes: an unknown referenced step, or a
referenced step that has not executed yet (its index is not strictly below
the current step's). -/
def refCheck (names : List (Str × Nat)) (currentStep : Str)
    (currentIndex : Nat) (body : Str) : List Str :=
  match refOfBody body with
  | none => []
  | some refName =>
      match List.find? (fun e => e.1 = refName) names with
      | none =>
          ["step \"".toList ++ currentStep ++
            "\": references unknown step \"".toList ++ refName ++ "\"".toList]
      | some (_, idx) =>
          if currentIndex ≤ idx then
            ["step \"".toList ++ currentStep ++ "\": references step \"".toList
              ++ refName ++ "\" which has not executed yet".toList]
          else []

/-- `checkStringRefs`: every expression body in `s` whose path begins with
`steps.` must reference a known, already-executed step.  `names` is the
name-to-index map built so far (including the current step). -/
def checkStringRefs (s : Str) (names : List (Str × Nat)) (currentStep : Str)
    (currentIndex : Nat) : List Str :=
  (findAllBodies (s.length + 1) s).flatMap
    (refCheck names currentStep currentIndex)

/-- The step names referenced from a string's expression bodies. -/
def refNamesOf (s : Str) : List Str :=
  (findAllBodies (s.length + 1) s).filterMap refOfBody

mutual
/-- `validateStepRefs`: walk the input map; strings are checked, nested
maps are walked recursively, and of list items only the strings are
checked (maps nested inside lists are not walked). -/
def validateStepRefs (input : List (Str × Value)) (names : List (Str × Nat))
    (currentStep : Str) (currentIndex : Nat) : List Str :=
  match input with
  | [] => []
  | (_, v) :: rest =>
      refErrorsOfValue v names currentStep currentIndex ++
        validateStepRefs rest names currentStep currentIndex

def refErrorsOfValue (v : Value) (names : List (Str × Nat))
    (currentStep : Str) (currentIndex : Nat) : List Str :=
  match v with
  | .str s => checkStringRefs s names currentStep currentIndex
  | .map m => validateStepRefs m names currentStep currentIndex
  | .list items => refErrorsOfList items names currentStep currentIndex
  | _ => []

/-- Only string items of a list are checked (`if s, ok := item.(string)`). -/
def refErrorsOfList (items : List Value) (names : List (Str × Nat))
    (currentStep : Str) (currentIndex : Nat) : List Str :=
  match items with
  | [] => []
  | .str s :: rest =>
      checkStringRefs s names currentStep currentIndex ++
        refErrorsOfList rest names currentStep currentIndex
  | _ :: rest => refErrorsOfList rest names currentStep currentIndex
end

mutual
/-- The strings the validator's walk visits in a value: the string itself,
the values of nested maps recursively, and the string items of lists
(the walk does not enter maps or lists nested inside lists). -/
def walkedOfValue : Value → List Str
  | .str s => [s]
  | .map m => walkedOfEntries m
  | .list items => walkedOfList items
  | _ => []

def walkedOfEntries : List (Str × Value) → List Str
  | [] => []
  | (_, v) :: rest => walkedOfValue v ++ walkedOfEntries rest

def walkedOfList : List Value → List Str
  | [] => []
  | .str s :: rest => s :: walkedOfList rest
  | _ :: rest => walkedOfList rest
end

/-- Name-to-index insert (`stepNames[step.Name] = i`). -/
def namesInsert (names : List (Str × Nat)) (k : Str) (i : Nat) :
    List (Str × Nat) :=
  match names with
  | [] => [(k, i)]
  | e :: rest => if e.1 = k then (k, i) :: rest else e :: namesInsert rest k i

/-- The per-step checks of `ValidateFlow`'s loop body, excluding the
empty-name `continue` (handled by the caller): duplicate name, connector
existence and action support, `on_error` value, step references. -/
def stepChecks (reg : Registry) (step : StepDef) (i : Nat)
    (names : List (Str × Nat)) (namesWithCurrent : List (Str × Nat)) :
    List Str :=
  (match List.find? (fun e => e.1 = step.name) names with
   | some (_, prev) =>
       ["step ".toList ++ stepNum i ++ ": duplicate step name \"".toList ++
         step.name ++ "\" (first at step ".toList ++ stepNum prev ++
         ")".toList]
   | none => []) ++
  (if step.connector.isEmpty then
     ["step \"".toList ++ step.name ++ "\": 'connector' is required".toList]
   else
     match regGet reg step.connector with
     | none =>
         ["step \"".toList ++ step.name ++ "\": connector \"".toList ++
           step.connector ++ "\" not found in registry".toList]
     | some conn =>
         if ¬ step.action.isEmpty ∧
             ¬ (conn.actions.any (fun a => a.name = step.action)) then
           ["step \"".toList ++ step.name ++ "\": connector \"".toList ++
             step.connector ++ "\" does not support action \"".toList ++
             step.action ++ "\"".toList]
         else []) ++
  (if step.onError = [] ∨ step.onError = "abort".toList ∨
      step.onError = "continue".toList ∨ step.onError = "skip".toList then []
   else
     ["step \"".toList ++ step.name ++ "\": invalid on_error value \"".toList
       ++ step.onError ++ "\" (must be abort, continue, or skip)".toList]) ++
  validateStepRefs step.input namesWithCurrent step.name i

/-- The loop of `ValidateFlow` over the steps. -/
def validateSteps (reg : Registry) : List StepDef → Nat →
    List (Str × Nat) → List Str
  | [], _, _ => []
  | step :: rest, i, names =>
      if step.name.isEmpty then
        ("step ".toList ++ stepNum i ++ ": 'name' is required".toList) ::
          validateSteps reg rest (i + 1) names
      else
        let names' := namesInsert names step.name i
        stepChecks reg step i names names' ++
          validateSteps reg rest (i + 1) names'

/-- `ValidateFlow`: the collected validation issues; the empty list means
the flow is accepted (`ValidateFlow` returns `nil`). -/
def validateFlow (flow : FlowDef) (reg : Registry) : List Str :=
  (if flow.name.isEmpty then ["flow 'name' is required".toList] else []) ++
  (if flow.steps.isEmpty then ["flow must have at least one step".toList]
   else []) ++
  validateSteps reg flow.steps 0 []

/-- `ValidateInput`: every required property of the input schema must be a
key of the supplied input map.  (Go iterates the schema map in unspecified
order; the issue order here is schema list order.) -/
def validateInput (flow : FlowDef) (input : List (Str × Value)) : List Str :=
  match flow.input with
  | none => []
  | some props =>
      props.flatMap fun e =>
        if e.2.required ∧ (mapGet input e.1).isNone then
          ["required input field \"".toList ++ e.1 ++ "\" is missing".toList]
        else []

/-! ### Derived views of the validator's loop state

`namesAcc` is the `stepNames` map `ValidateFlow`'s loop has built after
walking an initial segment of the steps; `nameIdx`, `namesOk`,
`stepStaticOk` and `refsBackwardOk` are decidable statements of the loop's
side conditions, used as hypotheses. -/

/-- The step-name map accumulated over a list of steps starting at index
`i`: empty-named steps are skipped (the loop `continue`s before the
insert), the rest are inserted at their index. -/
def namesAcc : List StepDef → Nat → List (Str × Nat) → List (Str × Nat)
  | [], _, names => names
  | step :: rest, i, names =>
      if step.name.isEmpty then namesAcc rest (i + 1) names
      else namesAcc rest (i + 1) (namesInsert names step.name i)

/-- Index of the first step with a given name. -/
def nameIdx : List StepDef → Str → Option Nat
  | [], _ => none
  | st :: rest, r =>
      if st.name = r then some 0 else (nameIdx rest r).map (fun j => j + 1)

/-- All step names nonempty and pairwise distinct. -/
def namesOk : List StepDef → Bool
  | [] => true
  | st :: rest =>
      (!st.name.isEmpty) &&
        rest.all (fun s2 => !(decide (s2.name = st.name))) && namesOk rest

/-- The non-reference static checks of `ValidateFlow`'s loop body all pass
for a step: connector present, registered, supporting the action, and a
valid `on_error` value. -/
def stepStaticOk (reg : Registry) (st : StepDef) : Bool :=
  (!st.connector.isEmpty) &&
  (match regGet reg st.connector with
   | none => false
   | some conn =>
       st.action.isEmpty || conn.actions.any (fun a => a.name = st.action)) &&
  (decide (st.onError = []) || decide (st.onError = "abort".toList) ||
   decide (st.onError = "continue".toList) ||
   decide (st.onError = "skip".toList))

/-- Every `steps.`-reference the validator's walk visits points to a
strictly earlier step. -/
def refsBackwardOk (steps : List StepDef) : Bool :=
  (List.range steps.length).all fun i =>
    match steps.get? i with
    | none => true
    | some st =>
        (walkedOfEntries st.input).all fun s =>
          (findAllBodies (s.length + 1) s).all fun body =>
            match refOfBody body with
            | none => true
            | some r =>
                match nameIdx steps r with
                | none => false
                | some j => decide (j < i)

/-! ### The secrets file parser (`internal/engine/secrets.go`)

`LoadSecrets` is modelled on the list of lines of the file (the
`bufio.Scanner` iteration); the I/O wrapper is outside the model.  The
error carries the 1-based line number that the Go error message
(`"secrets file line %d: invalid format (expected KEY=VALUE)"`) reports. -/

/-- Strip one pair of outer quotes when the value has length at least two
and begins and ends with the same quote character. -/
def stripQuotes (value : Str) : Str :=
  if 2 ≤ value.length ∧
      ((value.head? = some '"' ∧ value.getLast? = some '"') ∨
        (value.head? = some (Char.ofNat 39) ∧
          value.getLast? = some (Char.ofNat 39))) then
    (value.drop 1).dropLast
  else value

/-- Go map assignment on a string-to-string map. -/
def smapSet (m : List (Str × Str)) (k v : Str) : List (Str × Str) :=
  match m with
  | [] => [(k, v)]
  | e :: rest => if e.1 = k then (k, v) :: rest else e :: smapSet rest k v

/-- The scan loop of `LoadSecrets`: `consumed` lines have been read so far,
so the current line is number `consumed + 1`. -/
def loadSecretsFrom : List Str → Nat → List (Str × Str) →
    Except Nat (List (Str × Str))
  | [], _, secrets => .ok secrets
  | line :: rest, consumed, secrets =>
      let l := trim line
      if l.isEmpty ∨ startsWith l ['#'] then
        loadSecretsFrom rest (consumed + 1) secrets
      else
        match cutChar l '=' with
        | (_, none) => .error (consumed + 1)
        | (rawKey, some rawValue) =>
            let key := trim rawKey
            let value := stripQuotes (trim rawValue)
            loadSecretsFrom rest (consumed + 1) (smapSet secrets key value)

/-- `LoadSecrets` on the lines of the file. -/
def loadSecrets (lines : List Str) : Except Nat (List (Str × Str)) :=
  loadSecretsFrom lines 0 []

/-! ### The engine (`internal/engine/engine.go`)

Concurrency and time are modelled away: parallel workers write disjoint
slots of a preallocated slice and read a context that is not mutated during
the group, so the join is the in-order map below; the backoff sleep and the
cancellation channel are dropped (the modelled context is never
cancelled), and connector invocation is deterministic, so each retry of a
step yields the executed step's one result.  Sub-flow recursion through
`Engine.Run` is the only unbounded recursion (the spec leaves cycle
prevention to callers); it is bounded here by a fuel parameter, and
exhausted fuel surfaces as the loader-style step error that a cycle guard
would produce — never as a returned error. -/

/-- The sub-flow entry point handed to the step executor
(`Engine.Run` called recursively, dependency-inverted like `FlowLoader`). -/
def SubRun := FlowDef → List (Str × Value) → Except (List Str) FlowResult

/-- The `FlowLoader` callback. -/
def Loader := Str → Except Str FlowDef

/-- `ValidationError.Error()`: one bullet per collected issue. -/
def validationErrText (errs : List Str) : Str :=
  "validation failed:\n  - ".toList ++
    (String.intercalate "\n  - " (errs.map String.mk)).toList

/-- `handleStepError`: apply a step's `on_error` policy to the flow result;
`true` means the flow aborts.  Note the `switch` has no `retry` case, so
`on_error = "retry"` falls out of it and the flow continues with the
overall status untouched. -/
def handleStepError (sr : StepResult) (onError : Str) (res : FlowResult) :
    FlowResult × Bool :=
  if ¬ (sr.status = "failed".toList ∨ sr.status = "error".toList) then
    (res, false)
  else
    let oe := if onError.isEmpty then "abort".toList else onError
    if oe = "abort".toList then
      ({ res with
          status := "failed".toList
          error := "step \"".toList ++ sr.name ++ "\" failed: ".toList ++
            sr.error },
       true)
    else if oe = "continue".toList then
      ({ res with status := "partial".toList }, false)
    else (res, false)

/-- `if cfg.MaxRetries <= 0 then 3`. -/
def effectiveMaxRetries (cfg : RetryConfig) : Int :=
  if cfg.maxRetries ≤ 0 then 3 else cfg.maxRetries

/-- `if cfg.BackoffSeconds <= 0 then 1.0`.  Only ever feeds the sleep. -/
def effectiveBackoff (cfg : RetryConfig) : ℚ :=
  if cfg.backoffSeconds ≤ 0 then 1 else cfg.backoffSeconds

/-- The `for attempt := 1; attempt <= maxRetries` loop of
`executeStepWithRetry`, over an oracle giving the result of the
re-execution at each attempt number (how a nondeterministic connector is
modelled; the engine instantiates it with its deterministic executor).
`remaining` counts the attempts still allowed; the second component of the
result counts the re-executions performed (model instrumentation only). -/
def retryLoop (execAttempt : Int → StepResult) :
    Nat → Int → StepResult → StepResult × Nat
  | 0, _, sr => (sr, 0)
  | remaining + 1, attempt, sr =>
      if ¬ (sr.status = "failed".toList ∨ sr.status = "error".toList) then
        (sr, 0)
      else
        let sr2 := { execAttempt attempt with retries := attempt }
        let (out, n) := retryLoop execAttempt remaining (attempt + 1) sr2
        (out, n + 1)

/-- `executeStepWithRetry` over an execution oracle: run once (attempt 0);
without a retry config or with `on_error ≠ retry` that is the result;
otherwise loop up to the (defaulted) `max_retries`.  The second component
counts executions (model instrumentation only). -/
def executeStepWithRetryGen (execAttempt : Int → StepResult)
    (step : StepDef) : StepResult × Nat :=
  let sr := execAttempt 0
  match step.retry with
  | none => (sr, 1)
  | some cfg =>
      if ¬ step.onError = "retry".toList then (sr, 1)
      else
        let (out, n) :=
          retryLoop execAttempt (effectiveMaxRetries cfg).toNat 1 sr
        (out, n + 1)

/-- `executeFlowStep`: run another flow as a step. -/
def executeFlowStep (subRun : SubRun) (loader : Option Loader)
    (sc : StepContext) (step : StepDef) : StepResult :=
  let base : StepResult :=
    { name := step.name, connector := "flow".toList, action := "run".toList }
  match loader with
  | none =>
      { base with
          status := "error".toList
          error := "flow composition not configured (no FlowLoader set)".toList }
  | some load =>
      let flowName :=
        if ¬ step.flow.isEmpty then step.flow
        else
          match mapGet step.input "flow".toList with
          | some (.str s) => s
          | _ => []
      if flowName.isEmpty then
        { base with
            status := "error".toList
            error := "flow step requires 'flow' field or input.flow".toList }
      else
        match load flowName with
        | .error e =>
            { base with
                status := "error".toList
                error := "loading flow \"".toList ++ flowName ++ "\": ".toList ++ e }
        | .ok childFlow =>
            match resolveMap sc step.input with
            | .error e =>
                { base with
                    status := "error".toList
                    error := "resolving child flow input: ".toList ++ e }
            | .ok resolved =>
                let childInput := mapErase resolved "flow".toList
                match subRun childFlow childInput with
                | .error ve =>
                    { base with
                        status := "error".toList
                        error := "running flow \"".toList ++ flowName ++ "\": ".toList ++ validationErrText ve }
                | .ok childResult =>
                    let baseOut :=
                      [("flow_status".toList, Value.str childResult.status),
                       ("steps".toList,
                        Value.int childResult.steps.length)]
                    let merged := childResult.steps.foldl
                      (fun acc cs =>
                        match cs.output with
                        | some m =>
                            m.foldl (fun a e => mapInsert a e.1 e.2) acc
                        | none => acc)
                      baseOut
                    { base with
                        status := childResult.status
                        output := some merged
                        error :=
                          if ¬ childResult.error.isEmpty then
                            childResult.error
                          else base.error }

/-- `executeStep`: intercept the `flow` pseudo-connector, otherwise look the
connector up, resolve the input, and execute. -/
def executeStep (subRun : SubRun) (reg : Registry) (loader : Option Loader)
    (sc : StepContext) (step : StepDef) : StepResult :=
  let base : StepResult :=
    { name := step.name, connector := step.connector, action := step.action }
  if step.connector = "flow".toList then
    executeFlowStep subRun loader sc step
  else
    match regGet reg step.connector with
    | none =>
        { base with
            status := "error".toList
            error := "connector \"".toList ++ step.connector ++ "\" not found".toList }
    | some conn =>
        match resolveMap sc step.input with
        | .error e =>
            { base with
                status := "error".toList
                error := "resolving input: ".toList ++ e }
        | .ok resolvedInput =>
            match conn.execute step.action resolvedInput with
            | .error e =>
                { base with status := "error".toList, error := e }
            | .ok frag =>
                { base with
                    status := frag.status,
                    output := frag.output
                    error := frag.error }

/-- `executeStepWithRetry` as the engine calls it.  Execution is
deterministic in the model, so every attempt re-executes to the same
result and the oracle is constant. -/
def executeStepWithRetry (subRun : SubRun) (reg : Registry)
    (loader : Option Loader) (sc : StepContext) (step : StepDef) :
    StepResult :=
  (executeStepWithRetryGen
    (fun _ => executeStep subRun reg loader sc step) step).1

/-- One parallel worker: evaluate its own `when` against the group-entry
context, then execute (with its own retry loop). -/
def parallelWorker (subRun : SubRun) (reg : Registry)
    (loader : Option Loader) (sc : StepContext) (s : StepDef) : StepResult :=
  if ¬ s.whenCond.isEmpty then
    match evaluateCondition sc s.whenCond with
    | .error e =>
        { name := s.name, connector := s.connector, action := s.action
          status := "error".toList
          error := "evaluating condition: ".toList ++ e }
    | .ok false =>
        { name := s.name, connector := s.connector, action := s.action
          status := "skipped".toList }
    | .ok true => executeStepWithRetry subRun reg loader sc s
  else executeStepWithRetry subRun reg loader sc s

/-- `executeParallel`: all workers run against the same group-entry
context and fill declaration-order slots; the join is therefore the
in-order list of worker results. -/
def executeParallel (subRun : SubRun) (reg : Registry)
    (loader : Option Loader) (sc : StepContext) :
    List StepDef → List StepResult
  | [] => []
  | s :: rest =>
      parallelWorker subRun reg loader sc s ::
        executeParallel subRun reg loader sc rest

/-- Append a step result to the flow record, publish it in the context
under `name`, and apply the `on_error` policy. -/
def recordAndHandle (name : Str) (sr : StepResult) (onError : Str)
    (res : FlowResult) (sctx : StepContext) :
    FlowResult × StepContext × Bool :=
  let res1 := { res with steps := res.steps ++ [sr] }
  let sctx1 := addStepResult sctx name sr
  match handleStepError sr onError res1 with
  | (res2, failed) => (res2, sctx1, failed)

/-- The join loop over a parallel group's results: append and publish each
sibling in declaration order, applying the group's `on_error` to each; an
abort stops the loop (later siblings are not appended). -/
def joinParallel (onError : Str) :
    List StepResult → FlowResult → StepContext →
      FlowResult × StepContext × Bool
  | [], res, sctx => (res, sctx, false)
  | sr :: rest, res, sctx =>
      match recordAndHandle sr.name sr onError res sctx with
      | (res1, sctx1, true) => (res1, sctx1, true)
      | (res1, sctx1, false) => joinParallel onError rest res1 sctx1

/-- The body of `runWithContext`'s loop for one step: parallel group,
conditional, or plain execution; `true` means the flow aborts here. -/
def processStep (subRun : SubRun) (reg : Registry) (loader : Option Loader)
    (step : StepDef) (res : FlowResult) (sctx : StepContext) :
    FlowResult × StepContext × Bool :=
  if ¬ step.parallel.isEmpty then
    joinParallel step.onError
      (executeParallel subRun reg loader sctx step.parallel) res sctx
  else if ¬ step.whenCond.isEmpty then
    match evaluateCondition sctx step.whenCond with
    | .error e =>
        let sr : StepResult :=
          { name := step.name, connector := step.connector
            action := step.action, status := "error".toList
            error := "evaluating condition: ".toList ++ e }
        recordAndHandle step.name sr step.onError res sctx
    | .ok false =>
        let sr : StepResult :=
          { name := step.name, connector := step.connector
            action := step.action, status := "skipped".toList }
        ({ res with steps := res.steps ++ [sr] },
         addStepResult sctx step.name sr, false)
    | .ok true =>
        let sr := executeStepWithRetry subRun reg loader sctx step
        recordAndHandle step.name sr step.onError res sctx
  else
    let sr := executeStepWithRetry subRun reg loader sctx step
    recordAndHandle step.name sr step.onError res sctx

/-- The loop of `runWithContext` over the steps, with its early return on
abort. -/
def runSteps (subRun : SubRun) (reg : Registry) (loader : Option Loader) :
    List StepDef → FlowResult → StepContext → FlowResult
  | [], res, _ => res
  | step :: rest, res, sctx =>
      match processStep subRun reg loader step res sctx with
      | (res1, _, true) => res1
      | (res1, sctx1, false) => runSteps subRun reg loader rest res1 sctx1

/-- `Run` / `RunWithSecrets` at one recursion level: validate the input,
then drive the steps from a fresh context.  A validation failure is the
only returned error. -/
def runFlowCore (subRun : SubRun) (reg : Registry) (loader : Option Loader)
    (env : List (Str × Str)) (flow : FlowDef) (input : List (Str × Value))
    (secrets : List (Str × Str)) : Except (List Str) FlowResult :=
  let ve := validateInput flow input
  if ¬ ve.isEmpty then .error ve
  else
    .ok (runSteps subRun reg loader flow.steps
      { flow := flow.name, status := "success".toList, input := input }
      { input := input, env := env, secrets := secrets })

/-- The engine with the sub-flow recursion bounded by fuel.  Sub-flows run
through `Run`, i.e. with empty secrets; at exhausted fuel the sub-run
reports a validation-shaped failure that `executeFlowStep` records as a
step error (see the section comment). -/
def runFlowFuel (reg : Registry) (loader : Option Loader)
    (env : List (Str × Str)) : Nat → FlowDef → List (Str × Value) →
      List (Str × Str) → Except (List Str) FlowResult
  | 0, flow, input, secrets =>
      runFlowCore
        (fun _ _ => .error ["sub-flow recursion exceeds the model depth".toList])
        reg loader env flow input secrets
  | fuel + 1, flow, input, secrets =>
      runFlowCore (fun f i => runFlowFuel reg loader env fuel f i [])
        reg loader env flow input secrets

/-- `Engine.RunWithSecrets`. -/
def runWithSecrets (reg : Registry) (loader : Option Loader)
    (env : List (Str × Str)) (fuel : Nat) (flow : FlowDef)
    (input : List (Str × Value)) (secrets : List (Str × Str)) :
    Except (List Str) FlowResult :=
  runFlowFuel reg loader env fuel flow input secrets

/-- `Engine.Run`: as `RunWithSecrets` with no secrets. -/
def run (reg : Registry) (loader : Option Loader) (env : List (Str × Str))
    (fuel : Nat) (flow : FlowDef) (input : List (Str × Value)) :
    Except (List Str) FlowResult :=
  runFlowFuel reg loader env fuel flow input []

/-! ### Concrete fixtures

Connector instances used by the concrete scenario theorems.  The engine is
parametric in its connectors; these model `shell.run` on a command that
exits 1 (the connector reports `failed`, as `shell.go` does for a non-zero
exit code) and `log.print` (always `success`, echoing the message). -/

/-- `shell` with action `run` on the command `exit 1`: logical failure. -/
def shellExit1 : Connector :=
  { name := "shell".toList
    actions := [{ name := "run".toList }]
    execute := fun _ _ =>
      .ok { status := "failed".toList
            output := some [("exit_code".toList, .int 1),
                            ("stdout".toList, .str []),
                            ("stderr".toList, .str [])]
            error := "exit status 1".toList } }

/-- `log` with action `print`: success, echoing the rendered message. -/
def logPrint : Connector :=
  { name := "log".toList
    actions := [{ name := "print".toList }]
    execute := fun _ input =>
      .ok { status := "success".toList
            output := some [("message".toList,
              .str (render ((mapGet input "message".toList).getD
                (.str []))))] } }

/-- Registry with the two fixture connectors. -/
def regStd : Registry := [shellExit1, logPrint]

/-- A failing step with `on_error: retry` and
`retry: {max_retries: 2, backoff_seconds: 0.01}` (the spec's retry
exhaustion scenario). -/
def flakyRetryStep : StepDef :=
  .mk "flaky".toList "shell".toList "run".toList
    [("command".toList, .str "exit 1".toList)] "retry".toList
    (some { maxRetries := 2, backoffSeconds := 1 / 100 }) [] [] []

/-- A subsequent `log.print` step. -/
def afterStep : StepDef :=
  .mk "after".toList "log".toList "print".toList
    [("message".toList, .str "after retry".toList)] [] none [] [] []

/-- The retry-exhaustion flow: the failing retry step, then a plain step. -/
def retryFlow : FlowDef :=
  { name := "test".toList, steps := [flakyRetryStep, afterStep] }

/-- An otherwise fully valid flow whose first step uses `on_error: retry`
with a retry config (`max_retries = 2 ≥ 1`). -/
def retryOnErrorFlow : FlowDef :=
  { name := "test".toList
    steps :=
      [.mk "flaky".toList "shell".toList "run".toList
        [("command".toList, .str "exit 1".toList)] "retry".toList
        (some { maxRetries := 2, backoffSeconds := 1 / 100 }) [] [] []] }

/-- A step using the pseudo-connector `flow` (sub-flow composition). -/
def callChildStep : StepDef :=
  .mk "call-child".toList "flow".toList []
    [("name".toList, .str "World".toList)] [] none [] [] "child".toList

/-- An otherwise valid flow whose single step is `callChildStep`. -/
def flowStepFlow : FlowDef :=
  { name := "parent".toList, steps := [callChildStep] }

/-- A forward reference to step `later`, sitting inside a map nested
inside a list. -/
def fwdRefString : Str := "$\x7b\x7b steps.later.output.x \x7d\x7d".toList

/-- Step 0: its input holds a list whose item is a map whose value is the
forward-referencing string. -/
def c5CurStep : StepDef :=
  .mk "cur".toList "log".toList "print".toList
    [("k".toList, .list [.map [("m".toList, .str fwdRefString)]])]
    [] none [] [] []

/-- Step 1: the referenced step. -/
def c5LaterStep : StepDef :=
  .mk "later".toList "log".toList "print".toList
    [("message".toList, .str "hi".toList)] [] none [] [] []

/-- The counterexample flow: a forward reference hidden in a map nested
inside a list. -/
def c5Flow : FlowDef :=
  { name := "test".toList, steps := [c5CurStep, c5LaterStep] }

/-- A walked forward reference: step 0 of this flow carries
`fwdRefString` as a top-level string input value. -/
def c5FwdStep : StepDef :=
  .mk "cur".toList "log".toList "print".toList
    [("msg".toList, .str fwdRefString)] [] none [] [] []

/-- The flow whose walked forward reference the amended claim rejects. -/
def c5FwdFlow : FlowDef :=
  { name := "test".toList, steps := [c5FwdStep, c5LaterStep] }

/-- A step with no references, referenced backwards by `c5BackStep`. -/
def c5FirstStep : StepDef :=
  .mk "first".toList "log".toList "print".toList [] [] none [] [] []

/-- A step whose only reference points strictly backwards. -/
def c5BackStep : StepDef :=
  .mk "use".toList "log".toList "print".toList
    [("msg".toList, .str "$\x7b\x7b steps.first.output.x \x7d\x7d".toList)]
    [] none [] [] []

/-- A fully valid flow whose single walked reference points backwards. -/
def c5BackFlow : FlowDef :=
  { name := "ok".toList, steps := [c5FirstStep, c5BackStep] }

/-- A concrete resolution context for the C6 witness. -/
def c6Ctx : StepContext :=
  { input := [("present".toList, .str "x".toList)]
    steps := [("s1".toList,
      { status := "success".toList
        output := some [("a".toList, .int 1)] })]
    env := [("HOME".toList, "/root".toList)]
    secrets := [("API_KEY".toList, "sk".toList)] }

/-! ### Retry-loop lemmas -/

/-- The failure test of the engine (`status == "failed" || "error"`). -/
def isFailing (sr : StepResult) : Prop :=
  sr.status = "failed".toList ∨ sr.status = "error".toList

instance (sr : StepResult) : Decidable (isFailing sr) := by
  unfold isFailing
  infer_instance

/-- An execution oracle that always fails. -/
def execAlwaysFail : Int → StepResult :=
  fun _ => { status := "failed".toList }

/-- An execution oracle failing at attempt 0 and succeeding from 1 on. -/
def execSucceedsAt1 : Int → StepResult :=
  fun n =>
    if n ≤ 0 then { status := "failed".toList }
    else { status := "success".toList }

/-- A retry step whose config leaves both fields zero (to exercise the
defaults). -/
def zeroRetryStep : StepDef :=
  .mk "z".toList "shell".toList "run".toList [] "retry".toList
    (some { maxRetries := 0, backoffSeconds := 0 }) [] [] []

/-! ### Secrets-parser lemmas (C9) -/

/-- A line `LoadSecrets` does not choke on: blank or comment after
trimming, or containing an `=`. -/
def goodLine (l : Str) : Prop :=
  trim l = [] ∨ startsWith (trim l) ['#'] = true ∨ '=' ∈ trim l

instance (l : Str) : Decidable (goodLine l) := by
  unfold goodLine
  infer_instance

/-- A line that makes `LoadSecrets` fail: non-blank, not a comment, no
`=`. -/
def badLine (l : Str) : Prop :=
  ¬ trim l = [] ∧ ¬ startsWith (trim l) ['#'] = true ∧ '=' ∉ trim l

instance (l : Str) : Decidable (badLine l) := by
  unfold badLine
  infer_instance

/-- A flow with one required input property (`email`). -/
def c10Flow : FlowDef :=
  { name := "t".toList
    input := some [("email".toList, { required := true })]
    steps := [afterStep] }

/-- The context after the parallel join publishes each result under its
name. -/
def foldAdd (sctx : StepContext) (results : List StepResult) : StepContext :=
  results.foldl (fun sc r => addStepResult sc r.name r) sctx

/-- Parallel sibling `p1`: `log.print` of `one`. -/
def p1Step : StepDef :=
  .mk "p1".toList "log".toList "print".toList
    [("message".toList, .str "one".toList)] [] none [] [] []

/-- Parallel sibling `p2`: `log.print` of `two`. -/
def p2Step : StepDef :=
  .mk "p2".toList "log".toList "print".toList
    [("message".toList, .str "two".toList)] [] none [] [] []

/-- A parallel group step with the two siblings. -/
def c2Group : StepDef :=
  .mk "parallel-group".toList [] [] [] [] none [] [p1Step, p2Step] []

/-- The sub-run the C2 witness hands the executor (never consulted). -/
def noSubRun : SubRun := fun _ _ => .error []

/-- The initial flow record of the C2 witness. -/
def c2Res : FlowResult :=
  { flow := "test".toList, status := "success".toList, input := [] }

/-- The group-entry context of the C2 witness. -/
def c2Sctx : StepContext := { input := [] }

/-- The first sibling\'s result in the C2 witness run. -/
def c2R1 : StepResult :=
  { name := "p1".toList, connector := "log".toList
    action := "print".toList, status := "success".toList
    output := some [("message".toList, .str "one".toList)] }

/-- The second sibling\'s result in the C2 witness run. -/
def c2R2 : StepResult :=
  { name := "p2".toList, connector := "log".toList
    action := "print".toList, status := "success".toList
    output := some [("message".toList, .str "two".toList)] }

/-- The defaulted `on_error` value (`if onError == "" { onError = "abort" }`). -/
def effOnError (onError : Str) : Str :=
  if onError.isEmpty then "abort".toList else onError

/-- A failing parallel sibling: `shell.run` (exits 1). -/
def failPStep : StepDef :=
  .mk "f".toList "shell".toList "run".toList [] [] none [] [] []

/-- A parallel group with a failing first sibling under `continue`. -/
def c2ContGroup : StepDef :=
  .mk "grp".toList [] [] [] "continue".toList none [] [failPStep, p2Step] []

/-- The same group under the default (empty) `on_error`, i.e. abort. -/
def c2AbortGroup : StepDef :=
  .mk "grp".toList [] [] [] [] none [] [failPStep, p2Step] []

/-- The failing sibling's executed result. -/
def cFailR : StepResult :=
  { name := "f".toList, connector := "shell".toList
    action := "run".toList, status := "failed".toList
    output := some [("exit_code".toList, .int 1),
                    ("stdout".toList, .str []),
                    ("stderr".toList, .str [])]
    error := "exit status 1".toList }

/-! ### Expression-scanner lemmas (C7) -/

/-- Literal text: free of `$`, so no expression can start in it. -/
def litOk (t : Str) : Prop := '$' ∉ t

/-- A plain expression body: non-empty, free of whitespace and of closing
braces (so the lazy match captures it exactly). -/
def plainBody (b : Str) : Prop :=
  ¬ b = [] ∧ ∀ c ∈ b, ¬ isWs c = true ∧ ¬ c = cbrace

/-- The concatenation of expression segments: each segment is an
expression text followed by literal text. -/
def segsText (segs : List (Str × Str)) : Str :=
  (segs.map (fun p => mkExpr p.1 ++ p.2)).join

instance (b : Str) : Decidable (plainBody b) := by
  unfold plainBody
  infer_instance

instance (t : Str) : Decidable (litOk t) := by
  unfold litOk
  infer_instance

/-- The context of the C7 witness: `input.n` holds the integer 7. -/
def c7Ctx : StepContext := { input := [("n".toList, .int 7)] }

/-- C1.  For every step whose `on_error` is `retry` and whose retry loop
exhausts all attempts with the step still failed, the claim says the engine
applies abort semantics: `FlowResult.status = "failed"`, its `error`
populated, and no subsequent step executed.  The code does not: the
`switch` in `handleStepError` has no `retry` case, so after exhaustion
(here `max_retries = 2`, both statuses `failed`) the flow records the
failed step with `retries = 2`, runs the next step anyway, leaves the
overall status `"success"` and the flow error empty. -/
theorem c1_retry_exhaustion_does_not_abort :
    (run regStd none [] 1 retryFlow []).toOption.map
        (fun r => (r.status, r.error,
          r.steps.map (fun s => (s.name, s.status, s.retries)))) =
      some ("success".toList, [],
        [("flaky".toList, "failed".toList, 2),
         ("after".toList, "success".toList, 0)]) := by
  rfl

/-- C3.  The claim says `ValidateFlow` accepts `on_error` ∈ {empty,
`abort`, `continue`, `skip`, `retry`}.  The validator in the source accepts
only the first four: on an otherwise valid flow whose step carries
`on_error: retry` with `max_retries = 2`, it produces exactly the
invalid-`on_error` issue (whose own text denies `retry`). -/
theorem c3_validate_flow_rejects_retry :
    validateFlow retryOnErrorFlow regStd =
      [("step \"flaky\": invalid on_error value \"retry\" " ++
        "(must be abort, continue, or skip)").toList] := by
  rfl

/-- C4.  The claim says `ValidateFlow` exempts the pseudo-connector `flow`
from the registry-existence check.  It does not: with no connector named
`flow` registered, the validator reports it missing.  (The run-time half of
the claim does hold: `executeStep` on a `flow` step never consults the
registry — here an empty registry still yields the FlowLoader error, not a
connector-not-found error.) -/
theorem c4_validate_flow_checks_flow_connector :
    validateFlow flowStepFlow regStd =
      ["step \"call-child\": connector \"flow\" not found in registry".toList]
    ∧ (executeStep (fun _ _ => .error []) [] none { input := [] }
        callChildStep).error =
      "flow composition not configured (no FlowLoader set)".toList := by
  exact ⟨by rfl, by rfl⟩

/-- C5, counterexample.  `c5Flow`'s step 0 input contains (inside a map
nested inside a list) an expression referencing step 1 (`later`), so the
claim demands a validation error mentioning `later`; but `ValidateFlow`
accepts the flow with no error at all — `validateStepRefs` checks only
string items of lists and never walks maps nested inside them.  The second
conjunct shows the string does reference `later`. -/
theorem c5_counterexample_map_in_list_not_walked :
    validateFlow c5Flow regStd = [] ∧
      refNamesOf fwdRefString = ["later".toList] := by
  exact ⟨by rfl, by rfl⟩

/-! ### Helper lemmas on the string splitters and `resolvePath` -/

theorem cutChar_no_sep {s : Str} {sep : Char} (h : sep ∉ s) :
    cutChar s sep = (s, none) := by
  induction s with
  | nil => rfl
  | cons c t ih =>
      simp only [List.mem_cons, not_or] at h
      simp [cutChar, Ne.symm h.1, ih h.2]

theorem cutChar_append {w k : Str} {sep : Char} (h : sep ∉ w) :
    cutChar (w ++ sep :: k) sep = (w, some k) := by
  induction w with
  | nil => simp [cutChar]
  | cons c t ih =>
      simp only [List.mem_cons, not_or] at h
      simp [cutChar, Ne.symm h.1, ih h.2]

theorem splitAll_no_sep {k : Str} {sep : Char} (h : sep ∉ k) :
    splitAll k sep = [k] := by
  induction k with
  | nil => rfl
  | cons c t ih =>
      simp only [List.mem_cons, not_or] at h
      simp [splitAll, Ne.symm h.1, ih h.2]

theorem startsWith_append_self (p t : Str) :
    startsWith (p ++ t) p = true := by
  induction p with
  | nil => cases t <;> rfl
  | cons c q ih => simpa [startsWith] using ih

theorem cutSeq_boundary {name k : Str} {c0 : Char} {sep0 : Str}
    (h : c0 ∉ name) :
    cutSeq (name ++ (c0 :: sep0) ++ k) (c0 :: sep0) =
      (name, some k) := by
  induction name with
  | nil =>
      have hstarts : startsWith (c0 :: (sep0 ++ k)) (c0 :: sep0) = true := by
        simpa using startsWith_append_self (c0 :: sep0) k
      simp only [List.nil_append, List.cons_append, cutSeq, List.append_eq]
      rw [if_pos hstarts]
      simp [List.drop_left' (by simp : (c0 :: sep0).length = sep0.length + 1)]
  | cons c t ih =>
      simp only [List.mem_cons, not_or] at h
      have hcc : c ≠ c0 := fun hh => h.1 hh.symm
      have hns : ¬ (startsWith (c :: (t ++ c0 :: (sep0 ++ k)))
          (c0 :: sep0) = true) := by
        simp [startsWith, hcc]
      simp only [List.cons_append, List.append_assoc] at ih ⊢
      simp only [cutSeq, List.append_eq]
      rw [if_neg hns]
      simp [ih h.2]

theorem cutSeq_miss {s k : Str} {c0 : Char} {sep0 : Str}
    (h : c0 ∉ s) (hk : cutSeq k (c0 :: sep0) = (k, none)) :
    cutSeq (s ++ k) (c0 :: sep0) = (s ++ k, none) := by
  induction s with
  | nil => simpa using hk
  | cons c t ih =>
      simp only [List.mem_cons, not_or] at h
      have hcc : c ≠ c0 := fun hh => h.1 hh.symm
      have hns : ¬ (startsWith (c :: (t ++ k)) (c0 :: sep0) = true) := by
        simp [startsWith, hcc]
      simp only [List.cons_append, cutSeq, List.append_eq]
      rw [if_neg hns]
      simp [ih h.2]

theorem lookupNested_flat (m : List (Str × Value)) {k : Str}
    (hk : '.' ∉ k) :
    lookupNested m k =
      match mapGet m k with
      | some v => .ok v
      | none => .error ("key \"".toList ++ k ++ "\" not found".toList) := by
  rw [lookupNested, splitAll_no_sep hk]
  cases h : mapGet m k with
  | some v => simp [lookupNested.go, h]
  | none => simp [lookupNested.go, h]

theorem resolvePath_input_flat (sc : StepContext) {k : Str}
    (hk : '.' ∉ k) :
    resolvePath sc ("input.".toList ++ k) =
      .ok ((mapGet sc.input k).getD (.str [])) := by
  have hcut : cutChar ("input.".toList ++ k) '.' = ("input".toList, some k) := by
    have := @cutChar_append "input".toList k '.'
      (by decide)
    simpa using this
  rw [resolvePath]
  simp only [hcut]
  rw [lookupNested_flat sc.input hk]
  match h : mapGet sc.input k with
  | some v => simp [h]
  | none => simp [h]

theorem resolvePath_env (sc : StepContext) (k : Str) :
    resolvePath sc ("env.".toList ++ k) =
      .ok (.str ((smapGet sc.env k).getD [])) := by
  have hcut : cutChar ("env.".toList ++ k) '.' = ("env".toList, some k) := by
    have := @cutChar_append "env".toList k '.'
      (by decide)
    simpa using this
  rw [resolvePath]
  simp only [hcut]
  match h : smapGet sc.env k with
  | some v => simp [h]
  | none => simp [h]

theorem resolvePath_secret (sc : StepContext) (k : Str) :
    resolvePath sc ("secret.".toList ++ k) =
      .ok (.str ((smapGet sc.secrets k).getD [])) := by
  have hcut : cutChar ("secret.".toList ++ k) '.' =
      ("secret".toList, some k) := by
    have := @cutChar_append "secret".toList k '.'
      (by decide)
    simpa using this
  rw [resolvePath]
  simp only [hcut]
  match h : smapGet sc.secrets k with
  | some v => simp [h]
  | none => simp [h]

theorem resolvePath_steps_status (sc : StepContext) {name : Str}
    {sr : StepResult} (hname : '.' ∉ name)
    (hfind : List.find? (fun e => e.1 = name) sc.steps = some (name, sr)) :
    resolvePath sc ("steps.".toList ++ name ++ ".status".toList) =
      .ok (.str sr.status) := by
  have hcut : cutChar ("steps.".toList ++ name ++ ".status".toList) '.' =
      ("steps".toList, some (name ++ ".status".toList)) := by
    have := @cutChar_append "steps".toList
      (name ++ ".status".toList) '.' (by decide)
    simpa using this
  have hseq : cutSeq (name ++ ".status".toList) ".output.".toList =
      (name ++ ".status".toList, none) := by
    have := @cutSeq_miss name ".status".toList '.'
      "output.".toList hname (by rfl)
    simpa using this
  have hcut2 : cutChar (name ++ ".status".toList) '.' =
      (name, some "status".toList) := by
    have := @cutChar_append name "status".toList '.'
      hname
    simpa using this
  rw [resolvePath]
  simp only [hcut, hseq, hcut2, hfind]
  simp

theorem resolvePath_steps_output_flat (sc : StepContext) {name f : Str}
    {sr : StepResult} {out : List (Str × Value)}
    (hname : '.' ∉ name) (hf : '.' ∉ f)
    (hfind : List.find? (fun e => e.1 = name) sc.steps = some (name, sr))
    (hout : sr.output = some out) :
    resolvePath sc
        ("steps.".toList ++ name ++ ".output.".toList ++ f) =
      match mapGet out f with
      | some v => .ok v
      | none => .error ("key \"".toList ++ f ++ "\" not found".toList) := by
  have hcut : cutChar ("steps.".toList ++ name ++ ".output.".toList ++ f)
      '.' = ("steps".toList, some (name ++ ".output.".toList ++ f)) := by
    have := @cutChar_append "steps".toList
      (name ++ ".output.".toList ++ f) '.' (by decide)
    simpa [List.append_assoc] using this
  have hseq : cutSeq (name ++ ".output.".toList ++ f) ".output.".toList =
      (name, some f) := by
    have := @cutSeq_boundary name f '.'
      "output.".toList hname
    simpa using this
  rw [resolvePath]
  simp only [hcut, hseq, hfind, hout]
  rw [lookupNested_flat out hf]
  rw [if_neg (show ¬ ("steps".toList = "input".toList) by decide),
    if_pos trivial]

/-- C6.  For a key `K` absent from the corresponding map, resolving
`input.K`, `env.K` and `secret.K` each succeed with the empty string,
while a missing field under `steps.<name>.output` raises a resolution
error (`key "K" not found`). -/
theorem c6_missing_keys_resolve_empty (sc : StepContext) (k : Str)
    (hk : '.' ∉ k) :
    (mapGet sc.input k = none →
      resolvePath sc ("input.".toList ++ k) = .ok (.str [])) ∧
    (smapGet sc.env k = none →
      resolvePath sc ("env.".toList ++ k) = .ok (.str [])) ∧
    (smapGet sc.secrets k = none →
      resolvePath sc ("secret.".toList ++ k) = .ok (.str [])) ∧
    (∀ (name : Str) (sr : StepResult) (out : List (Str × Value)),
      '.' ∉ name →
      List.find? (fun e => e.1 = name) sc.steps = some (name, sr) →
      sr.output = some out → mapGet out k = none →
      resolvePath sc ("steps.".toList ++ name ++ ".output.".toList ++ k) =
        .error ("key \"".toList ++ k ++ "\" not found".toList)) := by
  refine ⟨?_, ?_, ?_, ?_⟩
  · intro h
    rw [resolvePath_input_flat sc hk, h]
    rfl
  · intro h
    rw [resolvePath_env sc k, h]
    rfl
  · intro h
    rw [resolvePath_secret sc k, h]
    rfl
  · intro name sr out hname hfind hout h
    rw [resolvePath_steps_output_flat sc hname hk hfind hout, h]

/-- C6, witness at the key `missing`. -/
theorem c6_missing_keys_resolve_empty_witness :
    resolvePath c6Ctx "input.missing".toList = .ok (.str []) ∧
    resolvePath c6Ctx "env.missing".toList = .ok (.str []) ∧
    resolvePath c6Ctx "secret.missing".toList = .ok (.str []) ∧
    resolvePath c6Ctx "steps.s1.output.missing".toList =
      .error "key \"missing\" not found".toList := by
  have h := c6_missing_keys_resolve_empty c6Ctx "missing".toList (by decide)
  exact ⟨h.1 (by rfl), h.2.1 (by rfl), h.2.2.1 (by rfl),
    h.2.2.2 "s1".toList _ [("a".toList, .int 1)] (by decide) (by rfl)
      (by rfl) (by rfl)⟩

theorem retryLoop_not_failing (exec : Int → StepResult) (rem : Nat)
    (attempt : Int) {sr : StepResult} (h : ¬ isFailing sr) :
    retryLoop exec rem attempt sr = (sr, 0) := by
  have h2 : ¬ (sr.status = "failed".toList ∨ sr.status = "error".toList) := h
  cases rem with
  | zero => rfl
  | succ r => simp only [retryLoop, if_pos h2]

theorem retryLoop_step_failing (exec : Int → StepResult) (rem : Nat)
    (attempt : Int) {sr : StepResult} (h : isFailing sr) :
    retryLoop exec (rem + 1) attempt sr =
      ((retryLoop exec rem (attempt + 1)
          { exec attempt with retries := attempt }).1,
       (retryLoop exec rem (attempt + 1)
          { exec attempt with retries := attempt }).2 + 1) := by
  have h2 : sr.status = "failed".toList ∨ sr.status = "error".toList := h
  simp only [retryLoop, if_neg (not_not_intro h2)]

theorem retryLoop_count_le (exec : Int → StepResult) :
    ∀ (rem : Nat) (attempt : Int) (sr : StepResult),
      (retryLoop exec rem attempt sr).2 ≤ rem := by
  intro rem
  induction rem with
  | zero => intro attempt sr; simp [retryLoop]
  | succ r ih =>
      intro attempt sr
      by_cases h : isFailing sr
      · rw [retryLoop_step_failing exec r attempt h]
        have := ih (attempt + 1) { exec attempt with retries := attempt }
        omega
      · rw [retryLoop_not_failing exec _ _ h]
        omega

theorem retryLoop_all_fail (exec : Int → StepResult)
    (hall : ∀ n, isFailing (exec n)) :
    ∀ (rem : Nat) (attempt : Int) (sr : StepResult), isFailing sr →
      retryLoop exec (rem + 1) attempt sr =
        ({ exec (attempt + rem) with retries := attempt + rem },
         rem + 1) := by
  intro rem
  induction rem with
  | zero =>
      intro attempt sr hsr
      rw [retryLoop_step_failing exec 0 attempt hsr]
      simp [retryLoop]
  | succ r ih =>
      intro attempt sr hsr
      rw [retryLoop_step_failing exec (r + 1) attempt hsr]
      have hfail2 : isFailing { exec attempt with retries := attempt } :=
        hall attempt
      rw [ih (attempt + 1) _ hfail2]
      have harith : attempt + 1 + (r : Int) = attempt + ((r : Int) + 1) := by
        ring
      simp [harith]

theorem retryLoop_first_success (exec : Int → StepResult)
    {k : Int} (hsucc : ¬ isFailing (exec k)) :
    ∀ (rem : Nat) (attempt : Int) (sr : StepResult), isFailing sr →
      (∀ n : Int, attempt ≤ n → n < k → isFailing (exec n)) →
      attempt ≤ k → k < attempt + rem →
      retryLoop exec rem attempt sr =
        ({ exec k with retries := k }, (k - attempt + 1).toNat) := by
  intro rem
  induction rem with
  | zero => intro attempt sr hsr hfail hak hlt; omega
  | succ r ih =>
      intro attempt sr hsr hfail hak hlt
      rw [retryLoop_step_failing exec r attempt hsr]
      by_cases hek : attempt = k
      · subst hek
        have hnot : ¬ isFailing { exec attempt with retries := attempt } :=
          hsucc
        rw [retryLoop_not_failing exec r (attempt + 1) hnot]
        simp [show attempt - attempt + 1 = (1 : Int) by ring]
      · have haltk : attempt < k := lt_of_le_of_ne hak hek
        have hfa : isFailing { exec attempt with retries := attempt } :=
          hfail attempt le_rfl haltk
        rw [ih (attempt + 1) _ hfa
          (fun n hn hnk => hfail n (by omega) hnk) (by omega) (by omega)]
        have : (k - (attempt + 1) + 1).toNat + 1 = (k - attempt + 1).toNat := by
          omega
        simp [this]

/-- C8.  With `on_error = retry` and a retry config, the (defaulted)
`max_retries` is `N ≥ 1`, connector execution happens at most `N + 1`
times, and the recorded `retries` is the number of retry attempts actually
performed: `N` when every attempt fails, `k` when attempt `k` is the first
success, `0` when the very first execution succeeds.  A zero
`max_retries` defaults to 3 and a zero `backoff_seconds` to 1. -/
theorem c8_retry_bound (step : StepDef) (cfg : RetryConfig)
    (exec : Int → StepResult)
    (hr : step.retry = some cfg) (ho : step.onError = "retry".toList) :
    (1 ≤ effectiveMaxRetries cfg ∧
      (cfg.maxRetries = 0 → effectiveMaxRetries cfg = 3) ∧
      (cfg.backoffSeconds = 0 → effectiveBackoff cfg = 1)) ∧
    ((executeStepWithRetryGen exec step).2 ≤
      (effectiveMaxRetries cfg).toNat + 1) ∧
    ((∀ n, isFailing (exec n)) →
      executeStepWithRetryGen exec step =
        ({ exec (effectiveMaxRetries cfg) with
            retries := effectiveMaxRetries cfg },
         (effectiveMaxRetries cfg).toNat + 1)) ∧
    (¬ isFailing (exec 0) →
      executeStepWithRetryGen exec step = (exec 0, 1)) ∧
    (∀ k : Int, 1 ≤ k → k ≤ effectiveMaxRetries cfg →
      (∀ n : Int, n < k → isFailing (exec n)) → ¬ isFailing (exec k) →
      executeStepWithRetryGen exec step =
        ({ exec k with retries := k }, (k + 1).toNat)) := by
  have hN : 1 ≤ effectiveMaxRetries cfg := by
    unfold effectiveMaxRetries
    by_cases h : cfg.maxRetries ≤ 0 <;> simp [h] <;> omega
  have hgen : executeStepWithRetryGen exec step =
      ((retryLoop exec (effectiveMaxRetries cfg).toNat 1 (exec 0)).1,
       (retryLoop exec (effectiveMaxRetries cfg).toNat 1 (exec 0)).2 + 1) := by
    unfold executeStepWithRetryGen
    rw [hr, ho]
    simp
  refine ⟨⟨hN, ?_, ?_⟩, ?_, ?_, ?_, ?_⟩
  · intro h; unfold effectiveMaxRetries; simp [h]
  · intro h; unfold effectiveBackoff; simp [h]
  · rw [hgen]
    have := retryLoop_count_le exec (effectiveMaxRetries cfg).toNat 1 (exec 0)
    simpa using this
  · intro hall
    rw [hgen]
    obtain ⟨m, hm⟩ : ∃ m, (effectiveMaxRetries cfg).toNat = m + 1 := by
      refine ⟨(effectiveMaxRetries cfg).toNat - 1, ?_⟩
      omega
    rw [hm, retryLoop_all_fail exec hall m 1 (exec 0) (hall 0)]
    have h1m : (1 : Int) + m = effectiveMaxRetries cfg := by omega
    simp [h1m, hm]
  · intro h0
    rw [hgen]
    rw [retryLoop_not_failing exec _ _ h0]
  · intro k hk1 hkN hfail hsucc
    rw [hgen]
    rw [retryLoop_first_success exec hsucc (effectiveMaxRetries cfg).toNat 1
      (exec 0) (hfail 0 (by omega)) (fun n _ hn => hfail n hn) hk1
      (by omega)]
    have harith : (k - 1 + 1).toNat + 1 = (k + 1).toNat := by omega
    simp [harith]
    omega

/-- C8, witness: with `max_retries = 2`, exhaustion gives 3 executions and
`retries = 2`; success at attempt 1 gives 2 executions and `retries = 1`;
and an all-zero config defaults to `max_retries = 3`,
`backoff_seconds = 1`. -/
theorem c8_retry_bound_witness :
    executeStepWithRetryGen execAlwaysFail flakyRetryStep =
      ({ status := "failed".toList, retries := 2 }, 3) ∧
    executeStepWithRetryGen execSucceedsAt1 flakyRetryStep =
      ({ status := "success".toList, retries := 1 }, 2) ∧
    effectiveMaxRetries { maxRetries := 0, backoffSeconds := 0 } = 3 ∧
    effectiveBackoff { maxRetries := 0, backoffSeconds := 0 } = 1 := by
  have h1 := c8_retry_bound flakyRetryStep
    { maxRetries := 2, backoffSeconds := 1 / 100 } execAlwaysFail rfl rfl
  have h2 := c8_retry_bound flakyRetryStep
    { maxRetries := 2, backoffSeconds := 1 / 100 } execSucceedsAt1 rfl rfl
  have h0 := c8_retry_bound zeroRetryStep
    { maxRetries := 0, backoffSeconds := 0 } execAlwaysFail rfl rfl
  refine ⟨?_, ?_, h0.1.2.1 rfl, h0.1.2.2 rfl⟩
  · have := h1.2.2.1 (fun _ => Or.inl rfl)
    simpa [execAlwaysFail, effectiveMaxRetries] using this
  · have := h2.2.2.2.2 1 (by omega) (by norm_num [effectiveMaxRetries])
      (fun n hn => by
        simp only [execSucceedsAt1, if_pos (by omega : n ≤ 0)]
        exact Or.inl rfl)
      (by
        simp only [execSucceedsAt1]
        rw [if_neg (by omega : ¬ (1 : Int) ≤ 0)]
        rintro (h | h) <;> simp at h)
    simpa [execSucceedsAt1, effectiveMaxRetries] using this

theorem cutChar_of_mem {s : Str} {sep : Char} (h : sep ∈ s) :
    ∃ a b, cutChar s sep = (a, some b) := by
  induction s with
  | nil => simp at h
  | cons c t ih =>
      by_cases hc : c = sep
      · exact ⟨[], t, by simp [cutChar, hc]⟩
      · have ht : sep ∈ t := by
          rcases List.mem_cons.mp h with h1 | h1
          · exact absurd h1.symm hc
          · exact h1
        obtain ⟨a, b, hab⟩ := ih ht
        exact ⟨c :: a, b, by simp [cutChar, hc, hab]⟩

theorem loadSecretsFrom_good {l : Str} (hgood : goodLine l)
    (rest : List Str) (n : Nat) (acc : List (Str × Str)) :
    ∃ acc2, loadSecretsFrom (l :: rest) n acc =
      loadSecretsFrom rest (n + 1) acc2 := by
  rcases hgood with h | h | h
  · exact ⟨acc, by simp [loadSecretsFrom, h]⟩
  · refine ⟨acc, ?_⟩
    by_cases hb : trim l = []
    · simp [loadSecretsFrom, hb]
    · simp [loadSecretsFrom, hb, h]
  · obtain ⟨a, b, hab⟩ := cutChar_of_mem h
    by_cases hb : trim l = []
    · exact ⟨acc, by simp [loadSecretsFrom, hb]⟩
    · by_cases hc : startsWith (trim l) ['#'] = true
      · exact ⟨acc, by simp [loadSecretsFrom, hb, hc]⟩
      · refine ⟨smapSet acc (trim a) (stripQuotes (trim b)), ?_⟩
        simp [loadSecretsFrom, hb, hc, hab]

/-- C9.  `LoadSecrets` is line-oriented: blank lines and `#`-comments are
skipped; a line with an `=` binds the whitespace-trimmed key to the
whitespace-trimmed value with one pair of matching outer quotes (double or
single) stripped; and the first line that is neither skippable nor of
`KEY=VALUE` shape aborts the parse with that line's 1-based number. -/
theorem c9_load_secrets (l : Str) (rest : List Str) (n : Nat)
    (acc : List (Str × Str)) :
    (trim l = [] →
      loadSecretsFrom (l :: rest) n acc = loadSecretsFrom rest (n + 1) acc) ∧
    (startsWith (trim l) ['#'] = true →
      loadSecretsFrom (l :: rest) n acc = loadSecretsFrom rest (n + 1) acc) ∧
    (∀ k0 v0, ¬ trim l = [] → ¬ startsWith (trim l) ['#'] = true →
      cutChar (trim l) '=' = (k0, some v0) →
      loadSecretsFrom (l :: rest) n acc =
        loadSecretsFrom rest (n + 1)
          (smapSet acc (trim k0) (stripQuotes (trim v0)))) ∧
    (∀ (inner : Str) (q : Char), q = '"' ∨ q = Char.ofNat 39 →
      stripQuotes (q :: (inner ++ [q])) = inner) ∧
    (∀ (pre : List Str) (bad : Str) (tail : List Str),
      (∀ x ∈ pre, goodLine x) → badLine bad →
      loadSecrets (pre ++ bad :: tail) = .error (pre.length + 1)) := by
  refine ⟨?_, ?_, ?_, ?_, ?_⟩
  · intro h; simp [loadSecretsFrom, h]
  · intro h
    by_cases hb : trim l = []
    · simp [loadSecretsFrom, hb]
    · simp [loadSecretsFrom, hb, h]
  · intro k0 v0 hb hc hcut
    simp [loadSecretsFrom, hb, hc, hcut]
  · intro inner q hq
    have hlen : 2 ≤ (q :: (inner ++ [q])).length := by simp
    have hhead : (q :: (inner ++ [q])).head? = some q := by simp
    have hlast : (q :: (inner ++ [q])).getLast? = some q := by
      rw [show q :: (inner ++ [q]) = (q :: inner) ++ [q] from by simp]
      exact List.getLast?_concat _
    unfold stripQuotes
    rw [if_pos]
    · simp
    · refine ⟨hlen, ?_⟩
      rcases hq with hq | hq <;> subst hq
      · exact Or.inl ⟨hhead, hlast⟩
      · exact Or.inr ⟨hhead, hlast⟩
  · intro pre bad tail hpre hbad
    have hstep : ∀ (p : List Str), (∀ x ∈ p, goodLine x) →
        ∀ (m : Nat) (a : List (Str × Str)),
        loadSecretsFrom (p ++ bad :: tail) m a = .error (m + p.length + 1) := by
      intro p
      induction p with
      | nil =>
          intro _ m a
          obtain ⟨hb1, hb2, hb3⟩ := hbad
          have hcut : cutChar (trim bad) '=' = (trim bad, none) :=
            cutChar_no_sep hb3
          simp [loadSecretsFrom, hb1, hb2, hcut]
      | cons x p ih =>
          intro hp m a
          obtain ⟨a2, ha2⟩ := loadSecretsFrom_good
            (hp x (List.mem_cons_self x p)) (p ++ bad :: tail) m a
          rw [List.cons_append, ha2,
            ih (fun y hy => hp y (List.mem_cons_of_mem x hy)) (m + 1) a2]
          simp
          omega
    have := hstep pre hpre 0 []
    unfold loadSecrets
    rw [this]
    simp

/-- C9, witness: the bad third line (after a comment line and a
`KEY=VALUE` line) is reported as line 3, and a double-quoted value loses
its outer quotes. -/
theorem c9_load_secrets_witness :
    loadSecrets ["# comment".toList, " A = 1 ".toList, "NOEQ".toList] =
      .error 3 ∧
    stripQuotes "\"super secret\"".toList = "super secret".toList := by
  have h := c9_load_secrets [] [] 0 []
  refine ⟨?_, ?_⟩
  · exact h.2.2.2.2 ["# comment".toList, " A = 1 ".toList] "NOEQ".toList []
      (by decide) (by decide)
  · have hs := h.2.2.2.1 "super secret".toList '"' (Or.inl rfl)
    simpa using hs

/-- C10.  `Engine.Run` returns a Go error exactly when `ValidateInput`
fails (some required schema property is missing from the input map); that
error is the validation issue list itself; in every other case `Run`
returns a `FlowResult` — step-level failures only ever land inside it. -/
theorem c10_run_error_iff_validate_input (reg : Registry)
    (loader : Option Loader) (env : List (Str × Str)) (fuel : Nat)
    (flow : FlowDef) (input : List (Str × Value)) :
    ((∃ e, run reg loader env fuel flow input = .error e) ↔
      ¬ validateInput flow input = []) ∧
    (∀ e, run reg loader env fuel flow input = .error e →
      e = validateInput flow input) ∧
    (¬ validateInput flow input = [] ↔
      ∃ nm fd, (nm, fd) ∈ flow.input.getD [] ∧ fd.required = true ∧
        mapGet input nm = none) ∧
    (validateInput flow input = [] →
      ∃ r, run reg loader env fuel flow input = .ok r) := by
  obtain ⟨sub, hsub⟩ : ∃ sub : SubRun,
      run reg loader env fuel flow input =
        runFlowCore sub reg loader env flow input [] := by
    cases fuel with
    | zero => exact ⟨_, rfl⟩
    | succ n => exact ⟨_, rfl⟩
  have hcore : runFlowCore sub reg loader env flow input [] =
      (if validateInput flow input = [] then
        .ok (runSteps sub reg loader flow.steps
          { flow := flow.name, status := "success".toList, input := input }
          { input := input, env := env, secrets := [] })
      else .error (validateInput flow input)) := by
    unfold runFlowCore
    by_cases h : validateInput flow input = []
    · rw [if_pos h]
      rw [if_neg (by simp [h])]
    · rw [if_neg h]
      rw [if_pos (by simpa [List.isEmpty_iff] using h)]
  have hchar : ¬ validateInput flow input = [] ↔
      ∃ nm fd, (nm, fd) ∈ flow.input.getD [] ∧ fd.required = true ∧
        mapGet input nm = none := by
    unfold validateInput
    cases hfi : flow.input with
    | none => simp
    | some props =>
        simp only [hfi, Option.getD_some]
        rw [show (¬ (props.flatMap fun e =>
            if e.2.required ∧ (mapGet input e.1).isNone then
              ["required input field \"".toList ++ e.1 ++
                "\" is missing".toList]
            else []) = []) ↔
          ¬ ∀ e ∈ props, (if e.2.required ∧ (mapGet input e.1).isNone then
              ["required input field \"".toList ++ e.1 ++
                "\" is missing".toList]
            else []) = ([] : List Str) from
          not_congr List.flatMap_eq_nil_iff]
        push_neg
        constructor
        · rintro ⟨⟨nm, fd⟩, hmem, hne⟩
          by_cases hc : fd.required ∧ (mapGet input nm).isNone
          · exact ⟨nm, fd, hmem, hc.1, Option.isNone_iff_eq_none.mp hc.2⟩
          · exact absurd (if_neg hc) hne
        · rintro ⟨nm, fd, hmem, hreq, hmiss⟩
          refine ⟨(nm, fd), hmem, ?_⟩
          simp [hreq, hmiss]
  rw [hsub, hcore]
  by_cases h : validateInput flow input = []
  · rw [if_pos h]
    refine ⟨?_, ?_, ?_, ?_⟩
    · simp [h]
    · intro e he
      simp at he
    · exact h ▸ hchar
    · intro _
      exact ⟨_, rfl⟩
  · rw [if_neg h]
    refine ⟨?_, ?_, ?_, ?_⟩
    · simp [h]
    · intro e he
      simpa using he.symm
    · exact hchar
    · intro hh
      exact absurd hh h

/-- C10, witness: with `email` missing, `Run` returns an error; with it
present, `Run` returns a result. -/
theorem c10_run_error_iff_validate_input_witness :
    (∃ e, run regStd none [] 1 c10Flow [] = .error e) ∧
    (∃ r, run regStd none [] 1 c10Flow
      [("email".toList, .str "a@b".toList)] = .ok r) := by
  have h1 := c10_run_error_iff_validate_input regStd none [] 1 c10Flow []
  have h2 := c10_run_error_iff_validate_input regStd none [] 1 c10Flow
    [("email".toList, .str "a@b".toList)]
  exact ⟨h1.1.mpr (by decide), h2.2.2.2 (by rfl)⟩

/-! ### Parallel-join lemmas (C2) -/

theorem executeFlowStep_name (subRun : SubRun) (loader : Option Loader)
    (sc : StepContext) (step : StepDef) :
    (executeFlowStep subRun loader sc step).name = step.name := by
  unfold executeFlowStep
  cases loader with
  | none => rfl
  | some load =>
      by_cases hf : step.flow.isEmpty
      all_goals simp only [hf]
      all_goals (repeat' split) <;> rfl

theorem executeStep_name (subRun : SubRun) (reg : Registry)
    (loader : Option Loader) (sc : StepContext) (step : StepDef) :
    (executeStep subRun reg loader sc step).name = step.name := by
  unfold executeStep
  by_cases hf : step.connector = "flow".toList
  · simpa [hf] using executeFlowStep_name subRun loader sc step
  · simp only [if_neg hf]
    split <;> try rfl
    split <;> try rfl
    split <;> rfl

theorem retryLoop_name (exec : Int → StepResult) {nm : Str}
    (hexec : ∀ n, (exec n).name = nm) :
    ∀ (rem : Nat) (attempt : Int) (sr : StepResult), sr.name = nm →
      ((retryLoop exec rem attempt sr).1).name = nm := by
  intro rem
  induction rem with
  | zero => intro attempt sr h; exact h
  | succ r ih =>
      intro attempt sr h
      by_cases hfail : isFailing sr
      · rw [retryLoop_step_failing exec r attempt hfail]
        exact ih (attempt + 1) _ (hexec attempt)
      · rw [retryLoop_not_failing exec _ _ hfail]
        exact h

theorem executeStepWithRetry_name (subRun : SubRun) (reg : Registry)
    (loader : Option Loader) (sc : StepContext) (step : StepDef) :
    (executeStepWithRetry subRun reg loader sc step).name = step.name := by
  unfold executeStepWithRetry executeStepWithRetryGen
  have hx := executeStep_name subRun reg loader sc step
  cases step.retry with
  | none => exact hx
  | some cfg =>
      by_cases ho : ¬ step.onError = "retry".toList
      · simp only [if_pos ho]
        exact hx
      · simp only [if_neg ho]
        exact retryLoop_name _ (fun _ => hx) _ 1 _ hx

theorem parallelWorker_name (subRun : SubRun) (reg : Registry)
    (loader : Option Loader) (sc : StepContext) (s : StepDef) :
    (parallelWorker subRun reg loader sc s).name = s.name := by
  unfold parallelWorker
  have hx := executeStepWithRetry_name subRun reg loader sc s
  split
  · split <;> first | rfl | exact hx
  · exact hx

theorem executeParallel_eq_map (subRun : SubRun) (reg : Registry)
    (loader : Option Loader) (sc : StepContext) (steps : List StepDef) :
    executeParallel subRun reg loader sc steps =
      steps.map (parallelWorker subRun reg loader sc) := by
  induction steps with
  | nil => rfl
  | cons s rest ih => simp [executeParallel, ih]

/-- `find?` by key skips over entries filtered out for a different key. -/
theorem find?_filter_other {l : List (Str × StepResult)} {k n : Str}
    (h : ¬ k = n) :
    List.find? (fun e => e.1 = k) (l.filter (fun e => ¬ e.1 = n)) =
      List.find? (fun e => e.1 = k) l := by
  induction l with
  | nil => rfl
  | cons a rest ih =>
      by_cases han : a.1 = n
      · have hfn : (decide ¬ a.1 = n) = false := by simp [han]
        have hfk : (decide (a.1 = k)) = false := by
          have hne : ¬ a.1 = k := by rw [han]; exact fun hh => h hh.symm
          simp [hne]
        simp only [List.filter_cons, hfn, Bool.false_eq_true, if_false, ih,
          List.find?_cons, hfk]
      · have hfn : (decide ¬ a.1 = n) = true := by simp [han]
        simp only [List.filter_cons, hfn, if_true, List.find?_cons]
        by_cases hak : a.1 = k
        · have hfk : (decide (a.1 = k)) = true := by simp [hak]
          simp only [hfk]
        · have hfk : (decide (a.1 = k)) = false := by simp [hak]
          simp only [hfk, ih]

theorem find?_addStepResult_self (sc : StepContext) (n : Str)
    (r : StepResult) :
    List.find? (fun e => e.1 = n) (addStepResult sc n r).steps =
      some (n, r) := by
  simp [addStepResult]

theorem find?_addStepResult_other (sc : StepContext) {k n : Str}
    (r : StepResult) (h : ¬ k = n) :
    List.find? (fun e => e.1 = k) (addStepResult sc n r).steps =
      List.find? (fun e => e.1 = k) sc.steps := by
  simp only [addStepResult]
  rw [List.find?_cons]
  have hnk : ¬ n = k := fun hh => h hh.symm
  have hfk : (decide (n = k)) = false := by simp [hnk]
  simp only [hfk]
  exact find?_filter_other h

theorem find?_foldAdd_other (results : List StepResult)
    (sctx : StepContext) {k : Str} (h : ∀ r ∈ results, ¬ r.name = k) :
    List.find? (fun e => e.1 = k) (foldAdd sctx results).steps =
      List.find? (fun e => e.1 = k) sctx.steps := by
  induction results generalizing sctx with
  | nil => rfl
  | cons r rest ih =>
      rw [show foldAdd sctx (r :: rest) =
        foldAdd (addStepResult sctx r.name r) rest from rfl]
      rw [ih _ (fun x hx => h x (List.mem_cons_of_mem r hx))]
      exact find?_addStepResult_other sctx r
        (fun hk => h r (List.mem_cons_self r rest) hk.symm)

theorem find?_foldAdd_nodup (results : List StepResult)
    (hnodup : (results.map StepResult.name).Nodup) (sctx : StepContext) :
    ∀ (i : Nat) (r : StepResult), results.get? i = some r →
      List.find? (fun e => e.1 = r.name) (foldAdd sctx results).steps =
        some (r.name, r) := by
  induction results generalizing sctx with
  | nil => intro i r hr; simp at hr
  | cons x rest ih =>
      intro i r hr
      rw [show foldAdd sctx (x :: rest) =
        foldAdd (addStepResult sctx x.name x) rest from rfl]
      have hn : (∀ y ∈ rest, ¬ y.name = x.name) ∧
          (List.map StepResult.name rest).Nodup := by simpa using hnodup
      cases i with
      | zero =>
          have hx : x = r := by simpa using hr
          subst hx
          rw [find?_foldAdd_other rest _ hn.1]
          exact find?_addStepResult_self sctx x.name x
      | succ j =>
          have hj : rest.get? j = some r := by simpa using hr
          exact ih hn.2 _ j r hj

theorem handleStepError_ok {sr : StepResult} (h : ¬ isFailing sr)
    (onError : Str) (res : FlowResult) :
    handleStepError sr onError res = (res, false) := by
  unfold handleStepError
  rw [if_pos
    (show ¬ (sr.status = "failed".toList ∨ sr.status = "error".toList)
      from h)]

theorem joinParallel_ok (onError : Str) (results : List StepResult)
    (h : ∀ r ∈ results, ¬ isFailing r) :
    ∀ (res : FlowResult) (sctx : StepContext),
      joinParallel onError results res sctx =
        ({ res with steps := res.steps ++ results },
         foldAdd sctx results, false) := by
  induction results with
  | nil => intro res sctx; simp [joinParallel, foldAdd]
  | cons r rest ih =>
      intro res sctx
      have h1 : ¬ isFailing r := h r (List.mem_cons_self r rest)
      simp only [joinParallel, recordAndHandle, handleStepError_ok h1,
        ih (fun x hx => h x (List.mem_cons_of_mem r hx))]
      simp [foldAdd]

theorem processStep_parallel (subRun : SubRun) (reg : Registry)
    (loader : Option Loader) (step : StepDef) (res : FlowResult)
    (sctx : StepContext) (hpar : ¬ step.parallel = []) :
    processStep subRun reg loader step res sctx =
      joinParallel step.onError
        (executeParallel subRun reg loader sctx step.parallel) res sctx := by
  unfold processStep
  rw [if_pos (by simp [List.isEmpty_iff, hpar])]

theorem executeParallel_get? (subRun : SubRun) (reg : Registry)
    (loader : Option Loader) (sc : StepContext) :
    ∀ (steps : List StepDef) (i : Nat) (s : StepDef),
      steps.get? i = some s →
      (executeParallel subRun reg loader sc steps).get? i =
        some (parallelWorker subRun reg loader sc s) := by
  intro steps
  induction steps with
  | nil => intro i s hs; simp at hs
  | cons x rest ih =>
      intro i s hs
      cases i with
      | zero =>
          have hx : x = s := by simpa using hs
          subst hx
          rfl
      | succ j =>
          have hj : rest.get? j = some s := by simpa using hs
          simpa [executeParallel] using ih j s hj

theorem handleStepError_eq (sr : StepResult) (onError : Str)
    (res : FlowResult) :
    handleStepError sr onError res =
      if ¬ isFailing sr then (res, false)
      else if effOnError onError = "abort".toList then
        ({ res with
            status := "failed".toList
            error := "step \"".toList ++ sr.name ++ "\" failed: ".toList ++
              sr.error },
         true)
      else if effOnError onError = "continue".toList then
        ({ res with status := "partial".toList }, false)
      else (res, false) := rfl

theorem joinParallel_no_abort (onError : Str) (results : List StepResult)
    (h : effOnError onError = "abort".toList → ∀ r ∈ results, ¬ isFailing r) :
    ∀ (res : FlowResult) (sctx : StepContext),
      joinParallel onError results res sctx =
        ({ res with
            steps := res.steps ++ results
            status :=
              if effOnError onError = "continue".toList ∧
                  (∃ r ∈ results, isFailing r) then "partial".toList
              else res.status },
         foldAdd sctx results, false) := by
  induction results with
  | nil =>
      intro res sctx
      rw [if_neg (by simp)]
      show (res, sctx, false) = _
      rw [List.append_nil]
      rfl
  | cons r rest ih =>
      intro res sctx
      rw [show joinParallel onError (r :: rest) res sctx =
          (match recordAndHandle r.name r onError res sctx with
           | (res1, sctx1, true) => (res1, sctx1, true)
           | (res1, sctx1, false) =>
               joinParallel onError rest res1 sctx1) from rfl]
      by_cases hf : isFailing r
      · have hoe : ¬ effOnError onError = "abort".toList := fun he =>
          (h he r (List.mem_cons_self r rest)) hf
        have hex : ∃ x ∈ r :: rest, isFailing x :=
          ⟨r, List.mem_cons_self r rest, hf⟩
        by_cases hc : effOnError onError = "continue".toList
        · have hrec : recordAndHandle r.name r onError res sctx =
              ({ res with
                  steps := res.steps ++ [r]
                  status := "partial".toList },
               addStepResult sctx r.name r, false) := by
            have hstep : handleStepError r onError
                { res with steps := res.steps ++ [r] } =
                ({ res with
                    steps := res.steps ++ [r]
                    status := "partial".toList }, false) := by
              rw [handleStepError_eq, if_neg (not_not_intro hf), if_neg hoe,
                if_pos hc]
            show (match handleStepError r onError
                { res with steps := res.steps ++ [r] } with
              | (res2, failed) => (res2, addStepResult sctx r.name r, failed))
              = _
            rw [hstep]
          simp only [hrec]
          rw [ih (fun he x hx => h he x (List.mem_cons_of_mem r hx))]
          simp [foldAdd, hc, hf, ite_self]
        · have hrec : recordAndHandle r.name r onError res sctx =
              ({ res with steps := res.steps ++ [r] },
               addStepResult sctx r.name r, false) := by
            have hstep : handleStepError r onError
                { res with steps := res.steps ++ [r] } =
                ({ res with steps := res.steps ++ [r] }, false) := by
              rw [handleStepError_eq, if_neg (not_not_intro hf), if_neg hoe,
                if_neg hc]
            show (match handleStepError r onError
                { res with steps := res.steps ++ [r] } with
              | (res2, failed) => (res2, addStepResult sctx r.name r, failed))
              = _
            rw [hstep]
          simp only [hrec]
          rw [ih (fun he x hx => h he x (List.mem_cons_of_mem r hx))]
          rw [if_neg (fun hand => hc hand.1),
            if_neg (fun hand => hc hand.1)]
          simp [foldAdd]
      · have hrec : recordAndHandle r.name r onError res sctx =
            ({ res with steps := res.steps ++ [r] },
             addStepResult sctx r.name r, false) := by
          have hstep : handleStepError r onError
              { res with steps := res.steps ++ [r] } =
              ({ res with steps := res.steps ++ [r] }, false) := by
            rw [handleStepError_eq, if_pos hf]
          show (match handleStepError r onError
              { res with steps := res.steps ++ [r] } with
            | (res2, failed) => (res2, addStepResult sctx r.name r, failed))
            = _
          rw [hstep]
        simp only [hrec]
        rw [ih (fun he x hx => h he x (List.mem_cons_of_mem r hx))]
        have hiff : (∃ x ∈ r :: rest, isFailing x) ↔
            (∃ x ∈ rest, isFailing x) := by
          constructor
          · rintro ⟨x, hx, hfx⟩
            rcases List.mem_cons.mp hx with he | hm
            · exact absurd (he ▸ hfx) hf
            · exact ⟨x, hm, hfx⟩
          · rintro ⟨x, hx, hfx⟩
            exact ⟨x, List.mem_cons_of_mem r hx, hfx⟩
        rw [if_congr (and_congr_right fun _ => hiff.symm) rfl rfl]
        simp [foldAdd]

theorem joinParallel_abort (onError : Str)
    (hoe : effOnError onError = "abort".toList) :
    ∀ (rs1 : List StepResult) (rbad : StepResult) (rs2 : List StepResult),
      (∀ r ∈ rs1, ¬ isFailing r) → isFailing rbad →
      ∀ (res : FlowResult) (sctx : StepContext),
        joinParallel onError (rs1 ++ rbad :: rs2) res sctx =
          ({ res with
              steps := res.steps ++ (rs1 ++ [rbad])
              status := "failed".toList
              error := "step \"".toList ++ rbad.name ++
                "\" failed: ".toList ++ rbad.error },
           foldAdd sctx (rs1 ++ [rbad]), true) := by
  intro rs1
  induction rs1 with
  | nil =>
      intro rbad rs2 h1 hbad res sctx
      rw [List.nil_append,
        show joinParallel onError (rbad :: rs2) res sctx =
          (match recordAndHandle rbad.name rbad onError res sctx with
           | (res1, sctx1, true) => (res1, sctx1, true)
           | (res1, sctx1, false) =>
               joinParallel onError rs2 res1 sctx1) from rfl]
      have hrec : recordAndHandle rbad.name rbad onError res sctx =
          ({ res with
              steps := res.steps ++ [rbad]
              status := "failed".toList
              error := "step \"".toList ++ rbad.name ++
                "\" failed: ".toList ++ rbad.error },
           addStepResult sctx rbad.name rbad, true) := by
        have hstep : handleStepError rbad onError
            { res with steps := res.steps ++ [rbad] } =
            ({ res with
                steps := res.steps ++ [rbad]
                status := "failed".toList
                error := "step \"".toList ++ rbad.name ++
                  "\" failed: ".toList ++ rbad.error }, true) := by
          rw [handleStepError_eq, if_neg (not_not_intro hbad), if_pos hoe]
        show (match handleStepError rbad onError
            { res with steps := res.steps ++ [rbad] } with
          | (res2, failed) => (res2, addStepResult sctx rbad.name rbad,
              failed)) = _
        rw [hstep]
      simp only [hrec]
      simp [foldAdd]
  | cons r rest ih =>
      intro rbad rs2 h1 hbad res sctx
      have hfr : ¬ isFailing r := h1 r (List.mem_cons_self r rest)
      have hrec : recordAndHandle r.name r onError res sctx =
          ({ res with steps := res.steps ++ [r] },
           addStepResult sctx r.name r, false) := by
        have hstep : handleStepError r onError
            { res with steps := res.steps ++ [r] } =
            ({ res with steps := res.steps ++ [r] }, false) := by
          rw [handleStepError_eq, if_pos hfr]
        show (match handleStepError r onError
            { res with steps := res.steps ++ [r] } with
          | (res2, failed) => (res2, addStepResult sctx r.name r, failed))
          = _
        rw [hstep]
      rw [List.cons_append,
        show joinParallel onError (r :: (rest ++ rbad :: rs2)) res sctx =
          (match recordAndHandle r.name r onError res sctx with
           | (res1, sctx1, true) => (res1, sctx1, true)
           | (res1, sctx1, false) =>
               joinParallel onError (rest ++ rbad :: rs2) res1 sctx1)
          from rfl]
      simp only [hrec]
      rw [ih rbad rs2 (fun x hx => h1 x (List.mem_cons_of_mem r hx)) hbad]
      simp [foldAdd, List.append_assoc]

/-- C2, amended.  For every parallel group: (a) every sibling executes and
the collected results sit in declaration order (slot `i` holds sibling
`i`\'s own worker result, carrying that sibling\'s name); (b) when no
sibling\'s failure aborts the join (the group\'s effective `on_error` is
not `abort`, or no sibling fails), every sibling\'s result — including
failed siblings under `continue` — is appended to the flow record in
declaration order and recorded in the context under that sibling\'s own
name, the overall status becoming `partial` exactly when a failing sibling
is handled by `continue`, and a subsequent step\'s references
`steps.<sibling>.status` / `steps.<sibling>.output.<field>` resolve
against that sibling\'s own recorded result; (c) under the (default)
`abort` policy the join stops at the first failing sibling: exactly the
results up to and including it are appended and recorded, and the flow
aborts. -/
theorem c2_parallel_join (subRun : SubRun) (reg : Registry)
    (loader : Option Loader) (step : StepDef) (res : FlowResult)
    (sctx : StepContext) (rs : List StepResult)
    (hpar : ¬ step.parallel = [])
    (hnodup : (step.parallel.map StepDef.name).Nodup)
    (hdots : ∀ s ∈ step.parallel, '.' ∉ s.name)
    (hrs : executeParallel subRun reg loader sctx step.parallel = rs) :
    (rs.length = step.parallel.length ∧
      ∀ (i : Nat) (s : StepDef), step.parallel.get? i = some s →
        rs.get? i = some (parallelWorker subRun reg loader sctx s) ∧
          (parallelWorker subRun reg loader sctx s).name = s.name) ∧
    ((effOnError step.onError = "abort".toList → ∀ r ∈ rs, ¬ isFailing r) →
      processStep subRun reg loader step res sctx =
        ({ res with
            steps := res.steps ++ rs
            status :=
              if effOnError step.onError = "continue".toList ∧
                  (∃ r ∈ rs, isFailing r) then "partial".toList
              else res.status },
         foldAdd sctx rs, false) ∧
      ∀ (i : Nat) (s : StepDef), step.parallel.get? i = some s →
        ∃ r, rs.get? i = some r ∧ r.name = s.name ∧
          List.find? (fun e => e.1 = s.name) (foldAdd sctx rs).steps =
            some (s.name, r) ∧
          resolvePath (foldAdd sctx rs)
              ("steps.".toList ++ s.name ++ ".status".toList) =
            .ok (.str r.status) ∧
          (∀ (f : Str) (out : List (Str × Value)) (v : Value),
            '.' ∉ f → r.output = some out → mapGet out f = some v →
            resolvePath (foldAdd sctx rs)
                ("steps.".toList ++ s.name ++ ".output.".toList ++ f) =
              .ok v)) ∧
    (∀ (rs1 : List StepResult) (rbad : StepResult) (rs2 : List StepResult),
      rs = rs1 ++ rbad :: rs2 →
      (∀ r ∈ rs1, ¬ isFailing r) → isFailing rbad →
      effOnError step.onError = "abort".toList →
      processStep subRun reg loader step res sctx =
        ({ res with
            steps := res.steps ++ (rs1 ++ [rbad])
            status := "failed".toList
            error := "step \"".toList ++ rbad.name ++
              "\" failed: ".toList ++ rbad.error },
         foldAdd sctx (rs1 ++ [rbad]), true)) := by
  subst hrs
  have hrnodup : ((executeParallel subRun reg loader sctx
      step.parallel).map StepResult.name).Nodup := by
    have heq : (executeParallel subRun reg loader sctx step.parallel).map
        StepResult.name = step.parallel.map StepDef.name := by
      rw [executeParallel_eq_map subRun reg loader sctx step.parallel,
        List.map_map]
      exact List.map_congr_left
        (fun s _ => parallelWorker_name subRun reg loader sctx s)
    rw [heq]
    exact hnodup
  refine ⟨⟨?_, ?_⟩, ?_, ?_⟩
  · rw [executeParallel_eq_map subRun reg loader sctx step.parallel]
    exact List.length_map _ _
  · intro i s hs
    exact ⟨executeParallel_get? subRun reg loader sctx step.parallel i s hs,
      parallelWorker_name subRun reg loader sctx s⟩
  · intro hna
    constructor
    · rw [processStep_parallel subRun reg loader step res sctx hpar]
      exact joinParallel_no_abort step.onError _ hna res sctx
    · intro i s hs
      have hget := executeParallel_get? subRun reg loader sctx
        step.parallel i s hs
      set r := parallelWorker subRun reg loader sctx s with hr
      have hrname : r.name = s.name :=
        parallelWorker_name subRun reg loader sctx s
      have hmem : s ∈ step.parallel := List.get?_mem hs
      have hfind : List.find? (fun e => e.1 = s.name)
          (foldAdd sctx
            (executeParallel subRun reg loader sctx step.parallel)).steps =
          some (s.name, r) := by
        have := find?_foldAdd_nodup _ hrnodup sctx i r hget
        rw [hrname] at this
        exact this
      refine ⟨r, hget, hrname, hfind, ?_, ?_⟩
      · exact resolvePath_steps_status _ (hdots s hmem) hfind
      · intro f out v hf hout hv
        rw [resolvePath_steps_output_flat _ (hdots s hmem) hf hfind hout]
        simp [hv]
  · intro rs1 rbad rs2 hsplit h1 hbad hoe
    rw [processStep_parallel subRun reg loader step res sctx hpar, hsplit]
    exact joinParallel_abort step.onError hoe rs1 rbad rs2 h1 hbad res sctx

/-- C2, witness.  `c2ContGroup` (failing first sibling, group
`on_error: continue`): both siblings — the failed one included — are
appended in declaration order and recorded, the flow status becomes
`partial`, and later references resolve to each sibling\'s own status and
output.  `c2AbortGroup` (same siblings, default `on_error`): the join
stops at the failing first sibling, appending and recording exactly it,
and aborts the flow. -/
theorem c2_parallel_join_witness :
    (∃ sctx2 : StepContext,
      processStep noSubRun regStd none c2ContGroup c2Res c2Sctx =
        ({ c2Res with
            steps := [cFailR, c2R2]
            status := "partial".toList },
         sctx2, false) ∧
      resolvePath sctx2 "steps.f.status".toList =
        .ok (.str "failed".toList) ∧
      resolvePath sctx2 "steps.p2.output.message".toList =
        .ok (.str "two".toList)) ∧
    processStep noSubRun regStd none c2AbortGroup c2Res c2Sctx =
      ({ c2Res with
          steps := [cFailR]
          status := "failed".toList
          error := "step \"f\" failed: exit status 1".toList },
       addStepResult c2Sctx "f".toList cFailR, true) := by
  constructor
  · have h := c2_parallel_join noSubRun regStd none c2ContGroup c2Res c2Sctx
      [cFailR, c2R2] (by exact List.cons_ne_nil _ _) (by decide) (by decide)
      (by rfl)
    have hb := h.2.1 (by intro he; exact absurd he (by decide))
    refine ⟨foldAdd c2Sctx [cFailR, c2R2], ?_, ?_, ?_⟩
    · rw [hb.1]
      rw [if_pos ⟨by decide, ⟨cFailR, List.mem_cons_self _ _, by decide⟩⟩]
      rfl
    · obtain ⟨r, hget, hname, hfind, hstatus, houtput⟩ :=
        hb.2 0 failPStep (by rfl)
      have hrr : r = cFailR := Option.some.inj (hget.symm.trans (by rfl))
      rw [hrr] at hstatus
      exact hstatus
    · obtain ⟨r, hget, hname, hfind, hstatus, houtput⟩ :=
        hb.2 1 p2Step (by rfl)
      have hrr : r = c2R2 := Option.some.inj (hget.symm.trans (by rfl))
      exact houtput "message".toList
        [("message".toList, .str "two".toList)] (.str "two".toList)
        (by decide) (by rw [hrr]; rfl) (by rfl)
  · have h := c2_parallel_join noSubRun regStd none c2AbortGroup c2Res c2Sctx
      [cFailR, c2R2] (by exact List.cons_ne_nil _ _) (by decide) (by decide)
      (by rfl)
    have hc := h.2.2 [] cFailR [c2R2] (by rfl) (by intro r hr; simp at hr)
      (by decide) (by decide)
    rw [hc]
    rfl

/-- C2, counterexample to the original claim.  In `c2AbortGroup` (first
sibling fails, group `on_error` empty, i.e. abort) both siblings execute
— slot 1 holds `p2`\'s successful result — yet after the join the flow
record holds only the failing sibling and the context has no entry for
`p2`: the original claim\'s "each sibling\'s StepResult is appended …
and is recorded" fails for `p2`. -/
theorem c2_counterexample_abort_drops_sibling :
    (executeParallel noSubRun regStd none c2Sctx
        c2AbortGroup.parallel).get? 1 = some c2R2 ∧
    (processStep noSubRun regStd none c2AbortGroup c2Res
        c2Sctx).1.steps.map StepResult.name = ["f".toList] ∧
    List.find? (fun e => e.1 = "p2".toList)
      (processStep noSubRun regStd none c2AbortGroup c2Res
        c2Sctx).2.1.steps = none := by
  exact ⟨by rfl, by rfl, by rfl⟩

theorem dropWhile_of_head_false {l : Str} {c : Char}
    (h : ¬ isWs c = true) : (c :: l).dropWhile isWs = c :: l := by
  simp [List.dropWhile_cons, h]

theorem validBody_mk {b : Str} (hb : plainBody b) :
    validBody (' ' :: (b ++ [' '])) = some b := by
  obtain ⟨hne, hchars⟩ := hb
  obtain ⟨c, b2, hcb⟩ : ∃ c b2, b = c :: b2 := by
    cases b with
    | nil => exact absurd rfl hne
    | cons c b2 => exact ⟨c, b2, rfl⟩
  have hp : (' ' :: (b ++ [' '])).dropWhile isWs = b ++ [' '] := by
    rw [List.dropWhile_cons]
    rw [if_pos (by decide)]
    rw [hcb, List.cons_append,
      dropWhile_of_head_false (hchars c (hcb ▸ List.mem_cons_self c b2)).1,
      ← List.cons_append, ← hcb]
  obtain ⟨d, rb, hrb⟩ : ∃ d rb, b.reverse = d :: rb := by
    cases hh : b.reverse with
    | nil =>
        rw [List.reverse_eq_nil_iff] at hh
        exact absurd hh hne
    | cons d rb => exact ⟨d, rb, rfl⟩
  have hd : d ∈ b := by
    have : d ∈ b.reverse := hrb ▸ List.mem_cons_self d rb
    simpa using this
  have hrev : (b ++ [' ']).reverse.dropWhile isWs = b.reverse := by
    rw [List.reverse_append]
    simp only [List.reverse_singleton, List.singleton_append]
    rw [List.dropWhile_cons]
    rw [if_pos (by decide)]
    rw [hrb, dropWhile_of_head_false (hchars d hd).1, ← hrb]
  have hnl : b.contains '\n' = false := by
    rw [List.contains_eq_any_beq]
    rw [List.any_eq_false]
    intro x hx
    have := (hchars x hx).1
    simp only [beq_iff_eq]
    intro hxeq
    subst hxeq
    exact this (by decide)
  unfold validBody
  rw [hp]
  rw [if_neg (by simp [hcb])]
  simp only [hrev, List.reverse_reverse, hnl]
  simp

theorem scanClose_step {c : Char} {s : Str} (fuel : Nat) (acc : Str)
    (hc : ¬ (c = cbrace ∧ s.head? = some cbrace)) :
    scanClose (fuel + 1) (c :: s) acc = scanClose fuel s (c :: acc) := by
  rw [show scanClose (fuel + 1) (c :: s) acc =
    (if c = cbrace ∧ s.head? = some cbrace then
      (match validBody acc.reverse with
       | some b => some (acc.reverse, b, s.tail)
       | none => scanClose fuel s (c :: acc))
     else scanClose fuel s (c :: acc)) from rfl]
  rw [if_neg hc]

theorem scanClose_close {b : Str} (fuel : Nat) (rest acc : Str)
    (hv : validBody acc.reverse = some b) :
    scanClose (fuel + 2) (cbrace :: cbrace :: rest) acc =
      some (acc.reverse, b, rest) := by
  rw [show scanClose (fuel + 2) (cbrace :: cbrace :: rest) acc =
    (if cbrace = cbrace ∧ (cbrace :: rest).head? = some cbrace then
      (match validBody acc.reverse with
       | some b2 => some (acc.reverse, b2, (cbrace :: rest).tail)
       | none => scanClose (fuel + 1) (cbrace :: rest) (cbrace :: acc))
     else scanClose (fuel + 1) (cbrace :: rest) (cbrace :: acc)) from rfl]
  rw [if_pos ⟨rfl, rfl⟩, hv]
  rfl

theorem scanClose_skip {m : Str} (hm : cbrace ∉ m) :
    ∀ (n : Nat) (r acc : Str),
      scanClose (n + m.length) (m ++ r) acc =
        scanClose n r (m.reverse ++ acc) := by
  induction m with
  | nil => intro n r acc; simp
  | cons c m2 ih =>
      intro n r acc
      simp only [List.mem_cons, not_or] at hm
      have hc : ¬ (c = cbrace ∧ (m2 ++ r).head? = some cbrace) :=
        fun hand => hm.1 hand.1.symm
      rw [show n + (c :: m2).length = (n + m2.length) + 1 from by
        simp
        omega]
      rw [List.cons_append]
      rw [scanClose_step (n + m2.length) acc hc]
      rw [ih hm.2 n r (c :: acc)]
      simp

theorem matchAt_open (t : Str) :
    matchAt ('$' :: obrace :: obrace :: t) =
      scanClose (t.length + 1) t [] := by
  rfl

theorem matchAt_ne_dollar {c : Char} (t : Str) (hc : ¬ c = '$') :
    matchAt (c :: t) = none := by
  unfold matchAt
  split
  · rename_i c1 c2 t3 heq
    injection heq with h1 _
    exact absurd h1 hc
  · rfl

theorem matchAt_mk {b : Str} (rest : Str) (hb : plainBody b) :
    matchAt (mkExpr b ++ rest) =
      some ((' ' :: (b ++ [' '])), b, rest) := by
  have hshape : mkExpr b ++ rest =
      '$' :: obrace :: obrace ::
        ((' ' :: (b ++ [' '])) ++ (cbrace :: cbrace :: rest)) := by
    unfold mkExpr exprOpen exprClose
    simp
  rw [hshape, matchAt_open]
  have hm : cbrace ∉ ' ' :: (b ++ [' ']) := by
    intro hmem
    rcases List.mem_cons.mp hmem with h1 | h1
    · exact absurd h1.symm (by decide)
    · rcases List.mem_append.mp h1 with h2 | h2
      · exact (hb.2 _ h2).2 (by simpa using h1)
      · simp at h2
        exact absurd h2.symm (by decide)
  have hlen : (((' ' :: (b ++ [' '])) ++ (cbrace :: cbrace :: rest)).length
      + 1) = (rest.length + 3) + (' ' :: (b ++ [' '])).length := by
    simp
    omega
  rw [hlen]
  rw [scanClose_skip hm (rest.length + 3) (cbrace :: cbrace :: rest) []]
  rw [show rest.length + 3 = (rest.length + 1) + 2 from by omega]
  rw [scanClose_close (rest.length + 1) rest _
    (by rw [List.append_nil, List.reverse_reverse]; exact validBody_mk hb)]
  rw [List.append_nil, List.reverse_reverse]

theorem findExpr_cons_eq (c : Char) (t : Str) :
    findExpr (c :: t) =
      (match matchAt (c :: t) with
       | some (mid, b, r) => some ([], mid, b, r)
       | none =>
          match findExpr t with
          | some (pre, mid, b, r) => some (c :: pre, mid, b, r)
          | none => none) := rfl

theorem findExpr_mkExpr {b : Str} (rest : Str) (hb : plainBody b) :
    findExpr (mkExpr b ++ rest) =
      some ([], ' ' :: (b ++ [' ']), b, rest) := by
  have hshape : ∃ t2, mkExpr b ++ rest = '$' :: t2 := by
    refine ⟨obrace :: obrace :: (' ' :: (b ++ [' ']) ++
      (cbrace :: cbrace :: rest)), ?_⟩
    unfold mkExpr exprOpen exprClose
    simp
  obtain ⟨t2, ht⟩ := hshape
  rw [ht, findExpr_cons_eq, ← ht, matchAt_mk rest hb]

theorem findExpr_no_dollar {t : Str} (h : '$' ∉ t) : findExpr t = none := by
  induction t with
  | nil => rfl
  | cons c t2 ih =>
      have hc : ¬ c = '$' := fun hh => h (by simp [hh])
      have h2 : '$' ∉ t2 := fun hh => h (List.mem_cons_of_mem c hh)
      rw [findExpr_cons_eq, matchAt_ne_dollar t2 hc, ih h2]

theorem findExpr_skip {pre : Str} (hpre : litOk pre) (x : Str) :
    findExpr (pre ++ x) =
      match findExpr x with
      | some (p, mid, b, r) => some (pre ++ p, mid, b, r)
      | none => none := by
  induction pre with
  | nil =>
      simp only [List.nil_append]
      cases hx : findExpr x with
      | none => rfl
      | some q => rcases q with ⟨p, mid, b, r⟩; rfl
  | cons c pre2 ih =>
      have hc : ¬ c = '$' := fun hh => hpre (by simp [hh])
      have h2 : litOk pre2 := fun hh => hpre (List.mem_cons_of_mem c hh)
      rw [List.cons_append, findExpr_cons_eq,
        matchAt_ne_dollar (pre2 ++ x) hc, ih h2]
      cases hx : findExpr x with
      | none => rfl
      | some q => rcases q with ⟨p, mid, b, r⟩; rfl

theorem findExpr_decomp {pre b : Str} (rest : Str) (hpre : litOk pre)
    (hb : plainBody b) :
    findExpr (pre ++ mkExpr b ++ rest) =
      some (pre, ' ' :: (b ++ [' ']), b, rest) := by
  rw [List.append_assoc, findExpr_skip hpre, findExpr_mkExpr rest hb]
  simp

theorem len_mkExpr (b : Str) : (mkExpr b).length = b.length + 7 := by
  simp [mkExpr, exprOpen, exprClose]

theorem segsText_nil : segsText [] = [] := by
  simp [segsText]

theorem segsText_cons (b t : Str) (rest : List (Str × Str)) :
    segsText ((b, t) :: rest) = mkExpr b ++ (t ++ segsText rest) := by
  simp [segsText]

theorem segsText_ne_nil {segs : List (Str × Str)} (h : ¬ segs = []) :
    ¬ segsText segs = [] := by
  cases segs with
  | nil => exact absurd rfl h
  | cons p rest =>
      rcases p with ⟨b, t⟩
      rw [segsText_cons]
      simp [mkExpr, exprOpen]

theorem replaceAll_segs (sc : StepContext) (ev : Str → Value) :
    ∀ (segs : List (Str × Str)) (t0 : Str) (fuel : Nat),
      litOk t0 → (∀ p ∈ segs, plainBody p.1 ∧ litOk p.2) →
      (∀ p ∈ segs, evaluateExpr sc p.1 = .ok (ev p.1)) →
      (t0 ++ segsText segs).length + 1 ≤ fuel →
      replaceAll sc fuel (t0 ++ segsText segs) =
        (t0 ++ (segs.map (fun p => render (ev p.1) ++ p.2)).join, none) := by
  intro segs
  induction segs with
  | nil =>
      intro t0 fuel h0 _ _ hfuel
      obtain ⟨f, hf⟩ : ∃ f, fuel = f + 1 := by
        cases fuel with
        | zero => simp at hfuel
        | succ f => exact ⟨f, rfl⟩
      subst hf
      rw [segsText_nil, List.append_nil]
      rw [show replaceAll sc (f + 1) t0 =
        (match findExpr t0 with
         | none => (t0, none)
         | some (pre, mid, body, rest) =>
            (match replaceAll sc f rest with
             | (tail, tailErr) =>
                match evaluateExpr sc body with
                | .ok v => (pre ++ render v ++ tail, tailErr)
                | .error e =>
                    (pre ++ exprOpen ++ mid ++ exprClose ++ tail,
                     match tailErr with
                     | some e2 => some e2
                     | none => some e))) from rfl]
      rw [findExpr_no_dollar h0]
      simp
  | cons p rest ih =>
      rcases p with ⟨b, t⟩
      intro t0 fuel h0 hsegs hev hfuel
      have hb : plainBody b := (hsegs (b, t) (List.mem_cons_self _ _)).1
      have ht : litOk t := (hsegs (b, t) (List.mem_cons_self _ _)).2
      rw [segsText_cons] at hfuel ⊢
      obtain ⟨f, hf⟩ : ∃ f, fuel = f + 1 := by
        cases fuel with
        | zero => simp at hfuel
        | succ f => exact ⟨f, rfl⟩
      subst hf
      have hfind := findExpr_decomp (t ++ segsText rest) h0 hb
      rw [show t0 ++ (mkExpr b ++ (t ++ segsText rest)) =
        t0 ++ mkExpr b ++ (t ++ segsText rest) from by simp]
      rw [show replaceAll sc (f + 1) (t0 ++ mkExpr b ++ (t ++ segsText rest)) =
        (match findExpr (t0 ++ mkExpr b ++ (t ++ segsText rest)) with
         | none => (t0 ++ mkExpr b ++ (t ++ segsText rest), none)
         | some (pre, mid, body, rest2) =>
            (match replaceAll sc f rest2 with
             | (tail, tailErr) =>
                match evaluateExpr sc body with
                | .ok v => (pre ++ render v ++ tail, tailErr)
                | .error e =>
                    (pre ++ exprOpen ++ mid ++ exprClose ++ tail,
                     match tailErr with
                     | some e2 => some e2
                     | none => some e))) from rfl]
      have hrec := ih t f ht
        (fun q hq => hsegs q (List.mem_cons_of_mem _ hq))
        (fun q hq => hev q (List.mem_cons_of_mem _ hq))
        (by
          have hge := hfuel
          simp only [List.length_append, len_mkExpr] at hge
          simp only [List.length_append]
          omega)
      simp only [hfind, hrec, hev (b, t) (List.mem_cons_self _ _)]
      simp

/-- C7.  A string that is exactly one expression resolves to the raw typed
value of that expression; otherwise every expression occurrence is
replaced by the `%v` rendering of its value, with the literal text
around the occurrences unchanged, and the result is a string.  The string
is presented as literal text `t0` followed by segments of expression text
and literal text. -/
theorem c7_resolve_string_whole_vs_interpolation (sc : StepContext)
    (t0 : Str) (segs : List (Str × Str)) (ev : Str → Value)
    (h0 : litOk t0) (hsegs : ∀ p ∈ segs, plainBody p.1 ∧ litOk p.2)
    (hev : ∀ p ∈ segs, evaluateExpr sc p.1 = .ok (ev p.1)) :
    (∀ b, t0 = [] → segs = [(b, [])] →
      resolveString sc (t0 ++ segsText segs) = evaluateExpr sc b) ∧
    ((¬ t0 = [] ∨ ∀ b, ¬ segs = [(b, [])]) →
      resolveString sc (t0 ++ segsText segs) =
        .ok (.str
          (t0 ++ (segs.map (fun p => render (ev p.1) ++ p.2)).join))) := by
  constructor
  · intro b h0eq hseq
    subst h0eq
    subst hseq
    have hb : plainBody b := (hsegs (b, []) (List.mem_cons_self _ _)).1
    have hfind := @findExpr_decomp [] b []
      (by intro h; simp at h) hb
    simp only [List.nil_append, List.append_nil] at hfind ⊢
    have hst : segsText [(b, [])] = mkExpr b := by
      rw [segsText_cons]
      simp [segsText]
    rw [hst]
    unfold resolveString
    simp only [hfind]
    simp
  · intro hcond
    cases hsegs2 : segs with
    | nil =>
        rw [segsText_nil, List.append_nil]
        unfold resolveString
        have hra := replaceAll_segs sc ev [] t0 (t0.length + 1) h0
          (by simp) (by simp) (by simp [segsText_nil])
        rw [segsText_nil, List.append_nil] at hra
        simp only [findExpr_no_dollar h0, hra]
    | cons p rest =>
        rcases p with ⟨b, t⟩
        subst hsegs2
        have hb : plainBody b := (hsegs (b, t) (List.mem_cons_self _ _)).1
        have hfind := findExpr_decomp (t ++ segsText rest) h0 hb
        rw [segsText_cons]
        rw [show t0 ++ (mkExpr b ++ (t ++ segsText rest)) =
          t0 ++ mkExpr b ++ (t ++ segsText rest) from by simp]
        unfold resolveString
        simp only [hfind]
        have hnotwhole : ¬ (t0 = [] ∧ t ++ segsText rest = []) := by
          rintro ⟨ht0, hrest⟩
          rcases hcond with hc | hc
          · exact hc ht0
          · rcases List.append_eq_nil.mp hrest with ⟨ht, hsrest⟩
            have hrnil : rest = [] := by
              by_contra hne
              exact segsText_ne_nil hne hsrest
            exact hc b (by rw [ht, hrnil])
        rw [if_neg hnotwhole]
        have hall := replaceAll_segs sc ev ((b, t) :: rest) t0
          ((t0 ++ mkExpr b ++ (t ++ segsText rest)).length + 1) h0 hsegs hev
          (by rw [segsText_cons]; simp)
        rw [segsText_cons] at hall
        rw [show t0 ++ (mkExpr b ++ (t ++ segsText rest)) =
          t0 ++ mkExpr b ++ (t ++ segsText rest) from by simp] at hall
        simp only [hall]

/-- C7, witness: the whole-string expression keeps the integer type; the
embedded occurrence is rendered into the surrounding literal text. -/
theorem c7_resolve_string_witness :
    resolveString c7Ctx "$\x7b\x7b input.n \x7d\x7d".toList =
      .ok (.int 7) ∧
    resolveString c7Ctx "x$\x7b\x7b input.n \x7d\x7dy".toList =
      .ok (.str "x7y".toList) := by
  constructor
  · have h := c7_resolve_string_whole_vs_interpolation c7Ctx []
      [("input.n".toList, [])] (fun _ => .int 7) (by decide)
      (by intro p hp; simp at hp; subst hp; exact ⟨by decide, by decide⟩)
      (by intro p hp; simp at hp; subst hp; rfl)
    have h1 := h.1 "input.n".toList rfl rfl
    rw [show ("$\x7b\x7b input.n \x7d\x7d".toList : Str) =
      [] ++ segsText [("input.n".toList, [])] from by rfl, h1]
    rfl
  · have h := c7_resolve_string_whole_vs_interpolation c7Ctx "x".toList
      [("input.n".toList, "y".toList)] (fun _ => .int 7) (by decide)
      (by intro p hp; simp at hp; subst hp; exact ⟨by decide, by decide⟩)
      (by intro p hp; simp at hp; subst hp; rfl)
    have h2 := h.2 (Or.inl (by decide))
    rw [show ("x$\x7b\x7b input.n \x7d\x7dy".toList : Str) =
      "x".toList ++ segsText [("input.n".toList, "y".toList)] from by rfl,
      h2]
    rfl

/-! ### C5 helper lemmas: reference checks as functions of the walk -/

theorem refCheck_none {n : List (Str × Nat)} {c : Str} {i : Nat} {body : Str}
    (h : refOfBody body = none) : refCheck n c i body = [] := by
  unfold refCheck
  rw [h]

theorem refCheck_unknown {n : List (Str × Nat)} {c : Str} {i : Nat}
    {body r : Str} (h1 : refOfBody body = some r)
    (h2 : List.find? (fun e => e.1 = r) n = none) :
    refCheck n c i body =
      ["step \"".toList ++ c ++ "\": references unknown step \"".toList ++
        r ++ "\"".toList] := by
  unfold refCheck
  simp only [h1, h2]

theorem refCheck_not_run {n : List (Str × Nat)} {c : Str} {i idx : Nat}
    {body r : Str} (h1 : refOfBody body = some r)
    (h2 : List.find? (fun e => e.1 = r) n = some (r, idx)) (h3 : i ≤ idx) :
    refCheck n c i body =
      ["step \"".toList ++ c ++ "\": references step \"".toList ++ r ++
        "\" which has not executed yet".toList] := by
  unfold refCheck
  simp only [h1, h2]
  rw [if_pos h3]

theorem refCheck_earlier {n : List (Str × Nat)} {c : Str} {i idx : Nat}
    {body r q : Str} (h1 : refOfBody body = some r)
    (h2 : List.find? (fun e => e.1 = r) n = some (q, idx)) (h3 : idx < i) :
    refCheck n c i body = [] := by
  unfold refCheck
  simp only [h1, h2]
  rw [if_neg (by omega)]

mutual
theorem refErrorsOfValue_eq : ∀ (v : Value) (n : List (Str × Nat)) (c : Str)
    (i : Nat), refErrorsOfValue v n c i =
      (walkedOfValue v).flatMap (fun s => checkStringRefs s n c i)
  | .str s, n, c, i => by
      rw [show refErrorsOfValue (.str s) n c i = checkStringRefs s n c i
            from rfl,
        show walkedOfValue (.str s) = [s] from rfl]
      simp
  | .int _, _, _, _ => rfl
  | .bool _, _, _, _ => rfl
  | .list items, n, c, i => by
      rw [show refErrorsOfValue (.list items) n c i =
            refErrorsOfList items n c i from rfl,
        show walkedOfValue (.list items) = walkedOfList items from rfl]
      exact refErrorsOfList_eq items n c i
  | .map m, n, c, i => by
      rw [show refErrorsOfValue (.map m) n c i = validateStepRefs m n c i
            from rfl,
        show walkedOfValue (.map m) = walkedOfEntries m from rfl]
      exact validateStepRefs_eq m n c i

theorem validateStepRefs_eq : ∀ (input : List (Str × Value))
    (n : List (Str × Nat)) (c : Str) (i : Nat),
    validateStepRefs input n c i =
      (walkedOfEntries input).flatMap (fun s => checkStringRefs s n c i)
  | [], _, _, _ => rfl
  | (k, v) :: rest, n, c, i => by
      rw [show validateStepRefs ((k, v) :: rest) n c i =
            refErrorsOfValue v n c i ++ validateStepRefs rest n c i from rfl,
        show walkedOfEntries ((k, v) :: rest) =
            walkedOfValue v ++ walkedOfEntries rest from rfl,
        List.flatMap_append, refErrorsOfValue_eq v n c i,
        validateStepRefs_eq rest n c i]

theorem refErrorsOfList_eq : ∀ (items : List Value) (n : List (Str × Nat))
    (c : Str) (i : Nat), refErrorsOfList items n c i =
      (walkedOfList items).flatMap (fun s => checkStringRefs s n c i)
  | [], _, _, _ => rfl
  | .str s :: rest, n, c, i => by
      rw [show refErrorsOfList (.str s :: rest) n c i =
            checkStringRefs s n c i ++ refErrorsOfList rest n c i from rfl,
        show walkedOfList (.str s :: rest) = s :: walkedOfList rest from rfl,
        List.flatMap_cons, refErrorsOfList_eq rest n c i]
  | .int m :: rest, n, c, i => by
      rw [show refErrorsOfList (.int m :: rest) n c i =
            refErrorsOfList rest n c i from rfl,
        show walkedOfList (.int m :: rest) = walkedOfList rest from rfl]
      exact refErrorsOfList_eq rest n c i
  | .bool b :: rest, n, c, i => by
      rw [show refErrorsOfList (.bool b :: rest) n c i =
            refErrorsOfList rest n c i from rfl,
        show walkedOfList (.bool b :: rest) = walkedOfList rest from rfl]
      exact refErrorsOfList_eq rest n c i
  | .list l :: rest, n, c, i => by
      rw [show refErrorsOfList (.list l :: rest) n c i =
            refErrorsOfList rest n c i from rfl,
        show walkedOfList (.list l :: rest) = walkedOfList rest from rfl]
      exact refErrorsOfList_eq rest n c i
  | .map m :: rest, n, c, i => by
      rw [show refErrorsOfList (.map m :: rest) n c i =
            refErrorsOfList rest n c i from rfl,
        show walkedOfList (.map m :: rest) = walkedOfList rest from rfl]
      exact refErrorsOfList_eq rest n c i
end

theorem find?_namesInsert_self (n : List (Str × Nat)) (k : Str) (i : Nat) :
    List.find? (fun e => e.1 = k) (namesInsert n k i) = some (k, i) := by
  induction n with
  | nil => simp [namesInsert, List.find?]
  | cons e rest ih =>
      show List.find? (fun e2 => e2.1 = k)
          (if e.1 = k then (k, i) :: rest else e :: namesInsert rest k i) =
        some (k, i)
      by_cases h : e.1 = k
      · rw [if_pos h, List.find?_cons_of_pos _ (by simp)]
      · rw [if_neg h, List.find?_cons_of_neg _ (by simp [h]), ih]

theorem find?_namesInsert_other {n : List (Str × Nat)} {k r : Str} {i : Nat}
    (h : k ≠ r) :
    List.find? (fun e => e.1 = r) (namesInsert n k i) =
      List.find? (fun e => e.1 = r) n := by
  induction n with
  | nil => simp [namesInsert, List.find?, h]
  | cons e rest ih =>
      show List.find? (fun e2 => e2.1 = r)
          (if e.1 = k then (k, i) :: rest else e :: namesInsert rest k i) =
        List.find? (fun e2 => e2.1 = r) (e :: rest)
      by_cases hek : e.1 = k
      · rw [if_pos hek, List.find?_cons_of_neg _ (by simp [h]),
          List.find?_cons_of_neg _ (by simp [hek, h])]
      · rw [if_neg hek]
        by_cases her : e.1 = r
        · rw [List.find?_cons_of_pos _ (by simp [her]),
            List.find?_cons_of_pos _ (by simp [her])]
        · rw [List.find?_cons_of_neg _ (by simp [her]),
            List.find?_cons_of_neg _ (by simp [her]), ih]

theorem namesAcc_cons (st : StepDef) (rest : List StepDef) (i : Nat)
    (n : List (Str × Nat)) :
    namesAcc (st :: rest) i n =
      if st.name.isEmpty then namesAcc rest (i + 1) n
      else namesAcc rest (i + 1) (namesInsert n st.name i) := rfl

theorem namesAcc_append (l1 l2 : List StepDef) (i : Nat)
    (n : List (Str × Nat)) :
    namesAcc (l1 ++ l2) i n =
      namesAcc l2 (i + l1.length) (namesAcc l1 i n) := by
  induction l1 generalizing i n with
  | nil => simp [namesAcc]
  | cons st rest ih =>
      rw [List.cons_append, namesAcc_cons, namesAcc_cons]
      by_cases h : st.name.isEmpty
      · rw [if_pos h, if_pos h, ih,
          show i + 1 + rest.length = i + (st :: rest).length from by
            simp only [List.length_cons]; omega]
      · rw [if_neg h, if_neg h, ih,
          show i + 1 + rest.length = i + (st :: rest).length from by
            simp only [List.length_cons]; omega]

theorem find?_namesAcc_of_ne {l : List StepDef} {i : Nat}
    {n : List (Str × Nat)} {r : Str} (h : ∀ st ∈ l, st.name ≠ r) :
    List.find? (fun e => e.1 = r) (namesAcc l i n) =
      List.find? (fun e => e.1 = r) n := by
  induction l generalizing i n with
  | nil => rfl
  | cons st rest ih =>
      rw [namesAcc_cons]
      by_cases hst : st.name.isEmpty
      · rw [if_pos hst]
        exact ih (fun s hs => h s (List.mem_cons_of_mem _ hs))
      · rw [if_neg hst, ih (fun s hs => h s (List.mem_cons_of_mem _ hs))]
        exact find?_namesInsert_other (h st (List.mem_cons_self _ _))

theorem nameIdx_some {l : List StepDef} {r : Str} {j : Nat}
    (h : nameIdx l r = some j) :
    ∃ st, l.get? j = some st ∧ st.name = r := by
  induction l generalizing j with
  | nil => exact absurd h (by simp [nameIdx])
  | cons st rest ih =>
      rw [show nameIdx (st :: rest) r =
            (if st.name = r then some 0
             else (nameIdx rest r).map (fun x => x + 1)) from rfl] at h
      by_cases hn : st.name = r
      · rw [if_pos hn] at h
        injection h with h
        exact ⟨st, by rw [← h]; rfl, hn⟩
      · rw [if_neg hn] at h
        cases hm : nameIdx rest r with
        | none => rw [hm] at h; simp at h
        | some j0 =>
            rw [hm] at h
            simp at h
            obtain ⟨st2, hget, hname⟩ := ih hm
            refine ⟨st2, ?_, hname⟩
            rw [← h]
            simpa using hget

theorem get?_lt_length {α : Type} {l : List α} {i : Nat} {x : α}
    (h : l.get? i = some x) : i < l.length := by
  induction l generalizing i with
  | nil => simp at h
  | cons y t ih =>
      match i with
      | 0 => simp
      | i0 + 1 =>
          have := ih (i := i0) (by simpa using h)
          simpa using Nat.succ_lt_succ this

theorem take_length_of_get? {α : Type} {l : List α} {i : Nat} {x : α}
    (h : l.get? i = some x) : (l.take i).length = i := by
  have := get?_lt_length h
  rw [List.length_take]
  omega

theorem list_split_at {α : Type} {l : List α} {i : Nat} {x : α}
    (h : l.get? i = some x) :
    l = l.take i ++ x :: l.drop (i + 1) := by
  induction l generalizing i with
  | nil => simp at h
  | cons y t ih =>
      match i with
      | 0 =>
          injection h with h
          rw [h]
          simp
      | i0 + 1 =>
          have h2 : t.get? i0 = some x := by simpa using h
          calc y :: t = y :: (t.take i0 ++ x :: t.drop (i0 + 1)) := by
                rw [← ih h2]
            _ = (y :: t).take (i0 + 1) ++ x :: (y :: t).drop (i0 + 1 + 1) := by
                simp [List.take_succ_cons, List.drop_succ_cons]

theorem mem_take_idx {α : Type} {l : List α} {i : Nat} {x : α}
    (h : x ∈ l.take i) : ∃ a, a < i ∧ l.get? a = some x := by
  induction l generalizing i with
  | nil => simp at h
  | cons y t ih =>
      match i with
      | 0 => simp at h
      | i0 + 1 =>
          rw [List.take_succ_cons] at h
          rcases List.mem_cons.mp h with h1 | h2
          · exact ⟨0, Nat.succ_pos _, by rw [h1]; rfl⟩
          · obtain ⟨a, ha, hg⟩ := ih h2
            exact ⟨a + 1, Nat.succ_lt_succ ha, by simpa using hg⟩

theorem mem_drop_idx {α : Type} {l : List α} {i : Nat} {x : α}
    (h : x ∈ l.drop i) : ∃ a, l.get? (i + a) = some x := by
  induction l generalizing i with
  | nil => simp at h
  | cons y t ih =>
      match i with
      | 0 =>
          rcases List.mem_cons.mp (by simpa using h) with h1 | h2
          · exact ⟨0, by rw [h1]; rfl⟩
          · obtain ⟨a, hg⟩ := ih (i := 0) (by simpa using h2)
            refine ⟨a + 1, ?_⟩
            have : t.get? a = some x := by simpa using hg
            simpa using this
      | i0 + 1 =>
          obtain ⟨a, hg⟩ := ih (i := i0) (by simpa using h)
          refine ⟨a, ?_⟩
          rw [show i0 + 1 + a = (i0 + a) + 1 from by omega]
          simpa using hg

theorem namesOk_cons {st : StepDef} {rest : List StepDef}
    (h : namesOk (st :: rest) = true) :
    st.name.isEmpty = false ∧ (∀ s2 ∈ rest, s2.name ≠ st.name) ∧
      namesOk rest = true := by
  rw [show namesOk (st :: rest) =
        ((!st.name.isEmpty) &&
          rest.all (fun s2 => !(decide (s2.name = st.name))) && namesOk rest)
        from rfl] at h
  simp only [Bool.and_eq_true, Bool.not_eq_true', List.all_eq_true] at h
  refine ⟨h.1.1, fun s2 hs => ?_, h.2⟩
  have := h.1.2 s2 hs
  simpa using this

theorem namesOk_nonempty {l : List StepDef} (h : namesOk l = true)
    {st : StepDef} (hm : st ∈ l) : st.name.isEmpty = false := by
  induction l with
  | nil => simp at hm
  | cons y rest ih =>
      obtain ⟨h1, _, h3⟩ := namesOk_cons h
      rcases List.mem_cons.mp hm with he | hm2
      · rw [he]; exact h1
      · exact ih h3 hm2

theorem namesOk_distinct {l : List StepDef} (h : namesOk l = true)
    {a b : Nat} {sta stb : StepDef} (hab : a < b)
    (ha : l.get? a = some sta) (hb : l.get? b = some stb) :
    sta.name ≠ stb.name := by
  induction l generalizing a b with
  | nil => simp at ha
  | cons y rest ih =>
      obtain ⟨_, h2, h3⟩ := namesOk_cons h
      match a, b with
      | _, 0 => exact absurd hab (by omega)
      | 0, b0 + 1 =>
          injection ha with ha
          have hbm : stb ∈ rest := List.get?_mem (by simpa using hb)
          rw [← ha]
          exact fun he => (h2 stb hbm) he.symm
      | a0 + 1, b0 + 1 =>
          have ha2 : rest.get? a0 = some sta := by simpa using ha
          have hb2 : rest.get? b0 = some stb := by simpa using hb
          exact ih h3 (show a0 < b0 by omega) ha2 hb2

theorem validateSteps_cons (reg : Registry) (st : StepDef)
    (rest : List StepDef) (i : Nat) (names : List (Str × Nat)) :
    validateSteps reg (st :: rest) i names =
      if st.name.isEmpty then
        ("step ".toList ++ stepNum i ++ ": 'name' is required".toList) ::
          validateSteps reg rest (i + 1) names
      else
        stepChecks reg st i names (namesInsert names st.name i) ++
          validateSteps reg rest (i + 1) (namesInsert names st.name i) := rfl

theorem validateSteps_append (reg : Registry) (l1 l2 : List StepDef)
    (i : Nat) (names : List (Str × Nat)) :
    validateSteps reg (l1 ++ l2) i names =
      validateSteps reg l1 i names ++
        validateSteps reg l2 (i + l1.length) (namesAcc l1 i names) := by
  induction l1 generalizing i names with
  | nil => simp [validateSteps, namesAcc]
  | cons st rest ih =>
      rw [List.cons_append, validateSteps_cons, validateSteps_cons,
        namesAcc_cons]
      by_cases h : st.name.isEmpty
      · rw [if_pos h, if_pos h, if_pos h, ih,
          show i + 1 + rest.length = i + (st :: rest).length from by
            simp only [List.length_cons]; omega]
        simp
      · rw [if_neg h, if_neg h, if_neg h, ih,
          show i + 1 + rest.length = i + (st :: rest).length from by
            simp only [List.length_cons]; omega]
        simp

theorem validateSteps_mem_of {reg : Registry} {steps : List StepDef}
    {i : Nat} {sti : StepDef} (hi : steps.get? i = some sti)
    (hne : sti.name.isEmpty = false) {e : Str}
    (he : e ∈ stepChecks reg sti i (namesAcc (steps.take i) 0 [])
        (namesInsert (namesAcc (steps.take i) 0 []) sti.name i)) :
    e ∈ validateSteps reg steps 0 [] := by
  have hlen := take_length_of_get? hi
  have h1 : validateSteps reg steps 0 [] =
      validateSteps reg (steps.take i) 0 [] ++
        validateSteps reg (sti :: steps.drop (i + 1)) i
          (namesAcc (steps.take i) 0 []) := by
    conv_lhs => rw [list_split_at hi]
    rw [validateSteps_append, hlen, Nat.zero_add]
  rw [h1]
  refine List.mem_append_right _ ?_
  rw [validateSteps_cons, if_neg (by simp [hne])]
  exact List.mem_append_left _ he

theorem validateSteps_drop_nil (reg : Registry) (full : List StepDef)
    (hnm : namesOk full = true) (hstat : full.all (stepStaticOk reg) = true)
    (hrefs : refsBackwardOk full = true) :
    ∀ (suffix : List StepDef) (t : Nat), suffix = full.drop t →
      validateSteps reg suffix t (namesAcc (full.take t) 0 []) = [] := by
  intro suffix
  induction suffix with
  | nil => intro t _; rfl
  | cons st rest ih =>
      intro t hdrop
      have hget : full.get? t = some st := by
        have h0 : (full.drop t).get? 0 = some st := by rw [← hdrop]; rfl
        rw [List.get?_drop] at h0
        simpa using h0
      have hrest : rest = full.drop (t + 1) := by
        calc rest = (st :: rest).tail := rfl
          _ = (full.drop t).tail := by rw [hdrop]
          _ = full.drop (t + 1) := by rw [List.tail_drop]
      have hmem : st ∈ full := List.get?_mem hget
      have hne : st.name.isEmpty = false := namesOk_nonempty hnm hmem
      rw [validateSteps_cons, if_neg (by simp [hne])]
      have hnames' : namesInsert (namesAcc (full.take t) 0 []) st.name t =
          namesAcc (full.take (t + 1)) 0 [] := by
        have hget2 : full[t]? = some st := by
          rw [← List.get?_eq_getElem?]
          exact hget
        rw [List.take_succ, hget2, show (some st).toList = [st] from rfl,
          namesAcc_append, take_length_of_get? hget, Nat.zero_add,
          namesAcc_cons, if_neg (by simp [hne])]
        rfl
      refine List.append_eq_nil.mpr ⟨?_, ?_⟩
      · -- the step's own checks are all empty
        have hner : ∀ s2 ∈ full.take t, s2.name ≠ st.name := by
          intro s2 hs2
          obtain ⟨a, hat, hga⟩ := mem_take_idx hs2
          exact namesOk_distinct hnm hat hga hget
        have hdup : List.find? (fun e => e.1 = st.name)
            (namesAcc (full.take t) 0 []) = none := by
          rw [find?_namesAcc_of_ne hner]
          rfl
        have hstat1 := List.all_eq_true.mp hstat st hmem
        rw [show stepStaticOk reg st =
              ((!st.connector.isEmpty) &&
               (match regGet reg st.connector with
                | none => false
                | some conn =>
                    st.action.isEmpty ||
                      conn.actions.any (fun a => a.name = st.action)) &&
               (decide (st.onError = []) ||
                decide (st.onError = "abort".toList) ||
                decide (st.onError = "continue".toList) ||
                decide (st.onError = "skip".toList))) from rfl] at hstat1
        simp only [Bool.and_eq_true] at hstat1
        obtain ⟨⟨hconn, hact⟩, herr⟩ := hstat1
        have hconnF : st.connector.isEmpty = false := by simpa using hconn
        have herrP : st.onError = [] ∨ st.onError = "abort".toList ∨
            st.onError = "continue".toList ∨ st.onError = "skip".toList := by
          simpa [or_assoc] using herr
        unfold stepChecks
        simp only [hdup]
        rw [if_neg (by simp [hconnF])]
        cases hreg : regGet reg st.connector with
        | none =>
            simp only [hreg] at hact
            exact absurd hact (by simp)
        | some conn =>
            simp only [hreg] at hact
            simp only [hreg]
            have hactP : st.action.isEmpty = true ∨
                conn.actions.any (fun a => a.name = st.action) = true := by
              simpa using hact
            have hcneg : ¬(¬ st.action.isEmpty = true ∧
                ¬ conn.actions.any (fun a => a.name = st.action) = true) := by
              rintro ⟨hx, hy⟩
              rcases hactP with h | h
              · exact hx h
              · exact hy h
            rw [if_neg hcneg, if_pos herrP]
            simp only [List.nil_append]
            rw [validateStepRefs_eq]
            refine List.flatMap_eq_nil_iff.mpr ?_
            intro s hs
            unfold checkStringRefs
            refine List.flatMap_eq_nil_iff.mpr ?_
            intro body hbody
            cases hrb : refOfBody body with
            | none => exact refCheck_none hrb
            | some r =>
                have hrefs2 := hrefs
                unfold refsBackwardOk at hrefs2
                have hall := List.all_eq_true.mp hrefs2 t
                    (List.mem_range.mpr (get?_lt_length hget))
                simp only [hget] at hall
                have hs2 := List.all_eq_true.mp hall s hs
                have hb2 := List.all_eq_true.mp hs2 body hbody
                simp only [hrb] at hb2
                cases hni : nameIdx full r with
                | none => rw [hni] at hb2; simp at hb2
                | some j =>
                    rw [hni] at hb2
                    have hjt : j < t := by simpa using hb2
                    obtain ⟨stj, hgj, hnamej⟩ := nameIdx_some hni
                    have hner2 : r ≠ st.name := fun he =>
                      (namesOk_distinct hnm hjt hgj hget) (hnamej.trans he)
                    have hgjt : (full.take t).get? j = some stj := by
                      rw [List.get?_take hjt]
                      exact hgj
                    have hjlen : ((full.take t).take j).length = j :=
                      take_length_of_get? hgjt
                    have hnej : stj.name.isEmpty = false :=
                      namesOk_nonempty hnm (List.get?_mem hgj)
                    have hdj : ∀ s2 ∈ (full.take t).drop (j + 1),
                        s2.name ≠ r := by
                      intro s2 hs2m he2
                      obtain ⟨b, hgb⟩ := mem_drop_idx hs2m
                      have hblt : j + 1 + b < t := by
                        have := get?_lt_length hgb
                        rw [List.length_take] at this
                        omega
                      have hgb2 : full.get? (j + 1 + b) = some s2 := by
                        rw [← List.get?_take hblt]
                        exact hgb
                      exact (namesOk_distinct hnm
                          (show j < j + 1 + b by omega) hgj hgb2)
                        (by rw [hnamej, ← he2])
                    have hfind : List.find? (fun e => e.1 = r)
                        (namesAcc (full.take t) 0 []) = some (r, j) := by
                      conv_lhs => rw [list_split_at hgjt]
                      rw [namesAcc_append, hjlen, Nat.zero_add, namesAcc_cons,
                        if_neg (by simp [hnej]), find?_namesAcc_of_ne hdj,
                        hnamej, find?_namesInsert_self]
                    have hfind2 : List.find? (fun e => e.1 = r)
                        (namesInsert (namesAcc (full.take t) 0 [])
                          st.name t) = some (r, j) := by
                      rw [find?_namesInsert_other (Ne.symm hner2), hfind]
                    exact refCheck_earlier hrb hfind2 hjt
      · rw [hnames']
        exact ih (t + 1) hrest

/-- C5.  Amended forward-reference rejection.  Forward half: in a flow
whose step names are nonempty and distinct, if step `i`'s input — among
the strings the validator's walk actually visits (`walkedOfEntries`) —
holds an expression body referencing step `j` with `i ≤ j`, then
`ValidateFlow` reports an error whose message contains step `j`'s name.
Reverse half: a flow with nonempty name, nonempty step list, distinct
nonempty step names, passing static checks, all of whose walked
references point strictly backwards, validates with no error. -/
theorem c5_forward_reference_rejection (flow : FlowDef) (reg : Registry) :
    (∀ (i j : Nat) (sti stj : StepDef) (s body : Str),
        namesOk flow.steps = true →
        flow.steps.get? i = some sti → flow.steps.get? j = some stj →
        i ≤ j → s ∈ walkedOfEntries sti.input →
        body ∈ findAllBodies (s.length + 1) s →
        refOfBody body = some stj.name →
        ∃ e, e ∈ validateFlow flow reg ∧
          ∃ pre post, e = pre ++ stj.name ++ post) ∧
    (flow.name.isEmpty = false → flow.steps.isEmpty = false →
        namesOk flow.steps = true →
        flow.steps.all (stepStaticOk reg) = true →
        refsBackwardOk flow.steps = true →
        validateFlow flow reg = []) := by
  constructor
  · intro i j sti stj s body hnm hi hj hij hs hbody hrb
    have hne : sti.name.isEmpty = false :=
      namesOk_nonempty hnm (List.get?_mem hi)
    have hchain : ∀ msg : Str,
        refCheck (namesInsert (namesAcc (flow.steps.take i) 0 [])
            sti.name i) sti.name i body = [msg] →
        msg ∈ validateFlow flow reg := by
      intro msg hrc
      have h1 : msg ∈ validateStepRefs sti.input
          (namesInsert (namesAcc (flow.steps.take i) 0 []) sti.name i)
          sti.name i := by
        rw [validateStepRefs_eq]
        refine List.mem_flatMap.mpr ⟨s, hs, ?_⟩
        unfold checkStringRefs
        refine List.mem_flatMap.mpr ⟨body, hbody, ?_⟩
        rw [hrc]
        exact List.mem_singleton.mpr rfl
      have h2 : msg ∈ stepChecks reg sti i (namesAcc (flow.steps.take i) 0 [])
          (namesInsert (namesAcc (flow.steps.take i) 0 []) sti.name i) := by
        unfold stepChecks
        exact List.mem_append_right _ h1
      unfold validateFlow
      exact List.mem_append_right _ (validateSteps_mem_of hi hne h2)
    rcases Nat.eq_or_lt_of_le hij with heq | hlt
    · have hstj : stj = sti := by
        rw [← heq] at hj
        rw [hi] at hj
        exact (Option.some_inj.mp hj).symm
      refine ⟨_, hchain _ (refCheck_not_run hrb
          (by rw [hstj]; exact find?_namesInsert_self _ _ _)
          (Nat.le_refl i)),
        "step \"".toList ++ sti.name ++ "\": references step \"".toList,
        "\" which has not executed yet".toList, by simp⟩
    · have hne2 : sti.name ≠ stj.name := namesOk_distinct hnm hlt hi hj
      have hfn : List.find? (fun e => e.1 = stj.name)
          (namesInsert (namesAcc (flow.steps.take i) 0 []) sti.name i) =
          none := by
        rw [find?_namesInsert_other hne2]
        have hner : ∀ s2 ∈ flow.steps.take i, s2.name ≠ stj.name := by
          intro s2 hs2
          obtain ⟨a, hai, hga⟩ := mem_take_idx hs2
          exact namesOk_distinct hnm (show a < j by omega) hga hj
        rw [find?_namesAcc_of_ne hner]
        rfl
      refine ⟨_, hchain _ (refCheck_unknown hrb hfn),
        "step \"".toList ++ sti.name ++
          "\": references unknown step \"".toList,
        "\"".toList, by simp⟩
  · intro hfn hfs hnm hstat hrefs
    unfold validateFlow
    rw [if_neg (by simp [hfn]), if_neg (by simp [hfs])]
    simp only [List.nil_append]
    have h := validateSteps_drop_nil reg flow.steps hnm hstat hrefs
        flow.steps 0 (by simp)
    simpa [namesAcc] using h

/-- C5, witness: `c5FwdFlow` (a walked forward reference to step `later`)
draws an error mentioning `later`; `c5BackFlow` (one backward reference,
otherwise valid) validates cleanly. -/
theorem c5_forward_reference_rejection_witness :
    (∃ e, e ∈ validateFlow c5FwdFlow regStd ∧
        ∃ pre post, e = pre ++ "later".toList ++ post) ∧
    validateFlow c5BackFlow regStd = [] := by
  constructor
  · exact (c5_forward_reference_rejection c5FwdFlow regStd).1 0 1
      c5FwdStep c5LaterStep fwdRefString "steps.later.output.x".toList
      (by decide) (by rfl) (by rfl) (by decide) (by decide) (by decide)
      (by rfl)
  · exact (c5_forward_reference_rejection c5BackFlow regStd).2
      (by rfl) (by rfl) (by decide) (by decide) (by decide)

end Piper

